import Mathlib

/-!
Formal model of the `your-agent` web-scraper ingestion pipeline
(`src/web_scraper/crawler/url_utils.py`, `queue_manager.py`, `crawler.py`,
`src/web_scraper/scraper/scraper_worker.py`, `src/web_scraper/scraper_runner.py`
and `src/utils/retry.py`).

URL strings are modelled as `List Char`.  The parts of CPython's
`urllib.parse` that the source calls (`urlparse`, `urlunparse`, `parse_qsl`)
are embedded following the CPython 3.10 implementation: tab/CR/LF characters
are removed from the URL, a scheme must start with an ASCII letter and
consist of scheme characters, `urlsplit` raises `ValueError` ("Invalid IPv6
URL") on a netloc containing an unmatched square bracket, and `parse_qsl`
splits on `&` only.  Percent-decoding maps each `%XX` escape to the
character with code `XX` (exact for ASCII data), and `str.lower` is
modelled on the ASCII range, which is exact for ASCII URLs.
-/

deriving instance DecidableEq for Except

namespace WebScraper

/-- Python `str.lower` on one character (ASCII range). -/
def pyLowerChar (c : Char) : Char :=
  if 65 ≤ c.toNat ∧ c.toNat ≤ 90 then Char.ofNat (c.toNat + 32) else c

/-- Python `str.lower` on a string. -/
def pyLower (l : List Char) : List Char := l.map pyLowerChar

/-- Split a list at the first character satisfying `p`: returns the part
before the first hit and the remainder starting with the hit (or `[]` if
there is no hit).  This is the building block for Python's `str.find` /
`str.split(sep, 1)` operations used by `urllib.parse`. -/
def breakAt (p : Char → Bool) : List Char → List Char × List Char
  | [] => ([], [])
  | c :: cs =>
    if p c then ([], c :: cs)
    else
      let r := breakAt p cs
      (c :: r.1, r.2)

/-- Python `str.split(sep)` (full split, empty pieces kept). -/
def splitChar (sep : Char) : List Char → List (List Char)
  | [] => [[]]
  | c :: cs =>
    match splitChar sep cs with
    | [] => [[c]]
    | h :: t => if c = sep then [] :: h :: t else (c :: h) :: t

/-- Does `l` start with the sequence `pat`? (Python `str.startswith`.) -/
def startsWithSeq : List Char → List Char → Bool
  | _, [] => true
  | [], _ :: _ => false
  | c :: cs, d :: ds => c = d && startsWithSeq cs ds

/-- Does `l` contain `pat` as a contiguous subsequence? (Python `in`.) -/
def containsSeq : List Char → List Char → Bool
  | [], pat => startsWithSeq [] pat
  | c :: cs, pat => startsWithSeq (c :: cs) pat || containsSeq cs pat

/-- Python `str.endswith`. -/
def hasSuffixSeq (l pat : List Char) : Bool :=
  startsWithSeq l.reverse pat.reverse

/-- Split `l` around its last `/`: `l = before ++ '/' :: after` with no `/`
in `after` (used by `urllib.parse._splitparams`). -/
def splitLastSlash (l : List Char) : Option (List Char × List Char) :=
  match breakAt (fun c => c = '/') l.reverse with
  | (revAfter, '/' :: revBefore) => some (revBefore.reverse, revAfter.reverse)
  | _ => none

/-- The fixpoint of Python's
`while "//" in path: path = path.replace("//", "/")`
in `normalize_url`: collapse every run of `/` to a single `/`. -/
def collapseSlashes : List Char → List Char
  | [] => []
  | [c] => [c]
  | c :: d :: rest =>
    if c = '/' ∧ d = '/' then collapseSlashes (d :: rest)
    else c :: collapseSlashes (d :: rest)

/-- ASCII letter test (Python `str.isascii() and str.isalpha()` on one char). -/
def isAsciiAlphaB (c : Char) : Bool :=
  (65 ≤ c.toNat && c.toNat ≤ 90) || (97 ≤ c.toNat && c.toNat ≤ 122)

/-- ASCII digit test. -/
def isDigitB (c : Char) : Bool := 48 ≤ c.toNat && c.toNat ≤ 57

/-- `scheme_chars` of `urllib.parse`: ASCII letters, digits, `+`, `-`, `.`. -/
def isSchemeChar (c : Char) : Bool :=
  isAsciiAlphaB c || isDigitB c || c = '+' || c = '-' || c = '.'

/-- Result of `urllib.parse.urlsplit` (before the params split). -/
structure SplitResult where
  scheme : List Char
  netloc : List Char
  pathS : List Char
  query : List Char
  fragment : List Char
deriving DecidableEq, Repr

/-- Result of `urllib.parse.urlparse`. -/
structure ParseResult where
  scheme : List Char
  netloc : List Char
  path : List Char
  params : List Char
  query : List Char
  fragment : List Char
deriving DecidableEq, Repr

/-- Is `c` one of the ASCII tab/CR/LF bytes that CPython removes from a URL
before splitting it (`_UNSAFE_URL_BYTES_TO_REMOVE`)? `okChar c` means `c`
is kept. -/
def okChar (c : Char) : Bool := ¬ (c = '\t' ∨ c = '\r' ∨ c = '\n')

/-- CPython removes ASCII tab, CR and LF from a URL before splitting it. -/
def removeUnsafe (l : List Char) : List Char := l.filter okChar

/-- Scheme extraction step of `urlsplit`: if the URL has a `:` preceded by a
nonempty run of scheme characters starting with an ASCII letter, that run
(lowercased) is the scheme and the remainder follows the `:`. -/
def splitScheme (url : List Char) : List Char × List Char :=
  match breakAt (fun c => c = ':') url with
  | (pre, _ :: rest) =>
    if pre ≠ [] ∧ isAsciiAlphaB (pre.headD ' ') ∧ pre.all isSchemeChar
    then (pyLower pre, rest)
    else ([], url)
  | (_, []) => ([], url)

/-- `urllib.parse._splitnetloc`: everything up to the first `/`, `?` or `#`. -/
def splitNetloc (url : List Char) : List Char × List Char :=
  breakAt (fun c => c = '/' ∨ c = '?' ∨ c = '#') url

/-- The "Invalid IPv6 URL" condition of `urlsplit`: an unmatched square
bracket in the netloc. -/
def badBrackets (netloc : List Char) : Bool :=
  ('[' ∈ netloc ∧ ¬ (']' ∈ netloc)) ∨ (']' ∈ netloc ∧ ¬ ('[' ∈ netloc))

/-- Steps of `urllib.parse.urlsplit` (with `allow_fragments=True`), named
individually.  `urlsplit` raises `ValueError("Invalid IPv6 URL")` on an
unmatched square bracket in the netloc, modelled as `Except.error`.
`usScheme` is the scheme component. -/
def usScheme (u : List Char) : List Char := (splitScheme (removeUnsafe u)).1

/-- Remainder of the URL after the scheme step of `urlsplit`. -/
def usRest1 (u : List Char) : List Char := (splitScheme (removeUnsafe u)).2

/-- Netloc step of `urlsplit`: `if url[:2] == '//': netloc, url = _splitnetloc(url, 2)`. -/
def usNetlocPair (u : List Char) : List Char × List Char :=
  if (usRest1 u).take 2 = ['/', '/'] then splitNetloc ((usRest1 u).drop 2)
  else ([], usRest1 u)

/-- Netloc component extracted by `urlsplit`. -/
def usNetloc (u : List Char) : List Char := (usNetlocPair u).1

/-- Remainder of the URL after the netloc step of `urlsplit`. -/
def usRest2 (u : List Char) : List Char := (usNetlocPair u).2

/-- Fragment step of `urlsplit`: split the remainder at the first `#`. -/
def usFragPair (u : List Char) : List Char × List Char :=
  breakAt (fun c => c = '#') (usRest2 u)

/-- Fragment component extracted by `urlsplit`. -/
def usFrag (u : List Char) : List Char :=
  match (usFragPair u).2 with
  | _ :: rest => rest
  | [] => []

/-- Query step of `urlsplit`: split what is left at the first `?`. -/
def usQueryPair (u : List Char) : List Char × List Char :=
  breakAt (fun c => c = '?') (usFragPair u).1

/-- Path component extracted by `urlsplit`. -/
def usPath (u : List Char) : List Char := (usQueryPair u).1

/-- Query component extracted by `urlsplit`. -/
def usQuery (u : List Char) : List Char :=
  match (usQueryPair u).2 with
  | _ :: rest => rest
  | [] => []

/-- Full `urlsplit`, assembled from the named steps above. -/
def urlsplit (u : List Char) : Except (List Char) SplitResult :=
  if badBrackets (usNetloc u) then
    Except.error ("Invalid IPv6 URL".toList)
  else
    Except.ok ⟨usScheme u, usNetloc u, usPath u, usQuery u, usFrag u⟩

/-- `urllib.parse._splitparams`: split `;params` off the last path segment. -/
def splitparams (url : List Char) : List Char × List Char :=
  if '/' ∈ url then
    match splitLastSlash url with
    | some (before, after) =>
      match breakAt (fun c => c = ';') after with
      | (a1, ';' :: a2) => (before ++ '/' :: a1, a2)
      | _ => (url, [])
    | none => (url, [])
  else
    match breakAt (fun c => c = ';') url with
    | (a1, ';' :: a2) => (a1, a2)
    | _ => (url, [])

/-- Path/params split of `urlparse`: `_splitparams` is applied only when the
path contains a `;`. -/
def upPathPair (l : List Char) : List Char × List Char :=
  if ';' ∈ l then splitparams l else (l, [])

/-- `urllib.parse.urlparse`. -/
def urlparse (url : List Char) : Except (List Char) ParseResult := do
  let s ← urlsplit url
  pure ⟨s.scheme, s.netloc, (upPathPair s.pathS).1, (upPathPair s.pathS).2,
    s.query, s.fragment⟩

/-- `urllib.parse.urlunsplit`. -/
def urlunsplit (scheme netloc path query fragment : List Char) : List Char :=
  let url1 :=
    if netloc ≠ [] ∨ (path ≠ [] ∧ path.take 2 = ['/', '/']) then
      let p2 := if path ≠ [] ∧ path.take 1 ≠ ['/'] then '/' :: path else path
      '/' :: '/' :: (netloc ++ p2)
    else path
  let url2 := if scheme ≠ [] then scheme ++ ':' :: url1 else url1
  let url3 := if query ≠ [] then url2 ++ '?' :: query else url2
  if fragment ≠ [] then url3 ++ '#' :: fragment else url3

/-- `urllib.parse.urlunparse`. -/
def urlunparse (scheme netloc path params query fragment : List Char) : List Char :=
  urlunsplit scheme netloc
    (if params ≠ [] then path ++ ';' :: params else path) query fragment

/-- Is `c` an ASCII hexadecimal digit? -/
def isHexChar (c : Char) : Bool :=
  c.isDigit || ('a' ≤ c && c ≤ 'f') || ('A' ≤ c && c ≤ 'F')

/-- Value of an ASCII hexadecimal digit. -/
def hexVal (c : Char) : Nat :=
  if c.isDigit then c.toNat - 48
  else if 'a' ≤ c ∧ c ≤ 'f' then c.toNat - 87
  else if 'A' ≤ c ∧ c ≤ 'F' then c.toNat - 55
  else 0

/-- Percent-decoding of `urllib.parse.unquote`, at byte level: a `%` followed
by two hex digits becomes the character with that code; anything else is
kept verbatim. -/
def pctDecode : List Char → List Char
  | [] => []
  | '%' :: a :: b :: rest =>
    if isHexChar a ∧ isHexChar b then
      Char.ofNat (16 * hexVal a + hexVal b) :: pctDecode rest
    else '%' :: pctDecode (a :: b :: rest)
  | c :: rest => c :: pctDecode rest

/-- `urllib.parse.unquote_plus`: `+` becomes a space, then percent-decode. -/
def unquote_plus (l : List Char) : List Char :=
  pctDecode (l.map (fun c => if c = '+' then ' ' else c))

/-- `urllib.parse.parse_qsl(qs, keep_blank_values=True)` with the default
`&` separator: empty chunks are skipped, a chunk without `=` becomes a pair
with empty value, and names and values are `unquote_plus`-decoded. -/
def parse_qsl (qs : List Char) : List (List Char × List Char) :=
  (splitChar '&' qs).filterMap (fun nv =>
    if nv = [] then none
    else
      match breakAt (fun c => c = '=') nv with
      | (k, '=' :: v) => some (unquote_plus k, unquote_plus v)
      | (k, _) => some (unquote_plus k, []))

/-- `TRACKING_PARAMS_EXACT` of `url_utils.py`. -/
def TRACKING_PARAMS_EXACT : List (List Char) :=
  ["gclid", "fbclid", "ref", "referrer", "_hsenc", "_hsmi"].map String.toList

/-- Does the key start with a member of `TRACKING_PARAMS_PREFIXES = ("utm_",)`? -/
def isUtmKey (k : List Char) : Bool := startsWithSeq k ("utm_".toList)

/-- Is the query key dropped by `_strip_tracking_params`? -/
def isTrackingKey (k : List Char) : Bool :=
  k ∈ TRACKING_PARAMS_EXACT || isUtmKey k

/-- Join `(k, v)` pairs back as `k=v&k=v` (the re-encoding used by
`_strip_tracking_params`). -/
def joinPairs (ps : List (List Char × List Char)) : List Char :=
  List.intercalate ['&'] (ps.map (fun kv => kv.1 ++ '=' :: kv.2))

/-- `url_utils._strip_tracking_params`. -/
def strip_tracking_params (query : List Char) : List Char :=
  if query = [] then []
  else
    let filtered := (parse_qsl query).filter (fun kv => ¬ isTrackingKey kv.1)
    if filtered = [] then [] else joinPairs filtered

/-- The `strip trailing slash (but keep root "/")` step of `normalize_url`:
`if len(path) > 1 and path.endswith("/"): path = path[:-1]`. -/
def stripTrail (l : List Char) : List Char :=
  if 1 < l.length ∧ l.getLast? = some '/' then l.dropLast else l

/-- Scheme component produced by `normalize_url`: `(parsed.scheme or "http").lower()`. -/
def normScheme (p : ParseResult) : List Char :=
  pyLower (if p.scheme = [] then "http".toList else p.scheme)

/-- Netloc component produced by `normalize_url`: `(parsed.netloc or "").lower()`. -/
def normNetloc (p : ParseResult) : List Char := pyLower p.netloc

/-- Path component produced by `normalize_url`: `parsed.path or "/"`, then
duplicate slashes collapsed, then one trailing slash stripped. -/
def normPath (p : ParseResult) : List Char :=
  stripTrail (collapseSlashes (if p.path = [] then ['/'] else p.path))

/-- Query component produced by `normalize_url`. -/
def normQuery (p : ParseResult) : List Char := strip_tracking_params p.query

/-- `url_utils.normalize_url`.  Propagates the `ValueError` that
`urllib.parse.urlparse` can raise. -/
def normalize_url (url : List Char) : Except (List Char) (List Char) :=
  (urlparse url).map (fun p =>
    urlunparse (normScheme p) (normNetloc p) (normPath p) [] (normQuery p) [])

/-- `url_utils.is_internal_url`: same host (lowercased, leading `www.`
stripped) and the URL's scheme is http or https. -/
def strip_www (h : List Char) : List Char :=
  if startsWithSeq h ("www.".toList) then h.drop 4 else h

/-- `url_utils.is_internal_url`. -/
def is_internal_url (url base_url : List Char) : Except (List Char) Bool := do
  let pb ← urlparse base_url
  let pu ← urlparse url
  let baseHost := pyLower pb.netloc
  let urlHost := pyLower pu.netloc
  pure (decide (strip_www urlHost = strip_www baseHost) &&
        (pu.scheme = "http".toList || pu.scheme = "https".toList))

/-- `DISALLOWED_EXTENSIONS` of `url_utils.py`. -/
def DISALLOWED_EXTENSIONS : List (List Char) :=
  [".png", ".jpg", ".jpeg", ".gif", ".webp", ".svg", ".ico",
   ".mp4", ".webm", ".mp3", ".wav", ".ogg",
   ".pdf", ".zip", ".rar", ".7z", ".gz", ".tar",
   ".doc", ".docx", ".xls", ".xlsx", ".ppt", ".pptx",
   ".exe", ".dmg", ".apk",
   ".css", ".js", ".mjs", ".map"].map String.toList

/-- `url_utils.is_probably_html_url`. -/
def is_probably_html_url (url : List Char) : Except (List Char) Bool := do
  let p ← urlparse url
  let path := pyLower p.path
  if containsSeq path ("/wp-content/uploads/".toList) then pure false
  else pure (¬ DISALLOWED_EXTENSIONS.any (fun ext => hasSuffixSeq path ext))

/-! ### Character-level lemmas -/

theorem charEq_of_toNat {c d : Char} (h : c.toNat = d.toNat) : c = d := by
  apply Char.ext
  exact UInt32.ext h

theorem charEq_iff_toNat {c d : Char} : c = d ↔ c.toNat = d.toNat :=
  ⟨fun h => by rw [h], charEq_of_toNat⟩

theorem toNat_ofNat_lower {m : Nat} (h1 : 97 ≤ m) (h2 : m ≤ 122) :
    (Char.ofNat m).toNat = m := by
  interval_cases m <;> decide

theorem pyLowerChar_upper {c : Char} (h1 : 65 ≤ c.toNat) (h2 : c.toNat ≤ 90) :
    (pyLowerChar c).toNat = c.toNat + 32 := by
  unfold pyLowerChar
  rw [if_pos ⟨h1, h2⟩]
  exact toNat_ofNat_lower (by omega) (by omega)

theorem pyLowerChar_eq_self {c : Char} (h : ¬ (65 ≤ c.toNat ∧ c.toNat ≤ 90)) :
    pyLowerChar c = c := by
  unfold pyLowerChar
  rw [if_neg h]

theorem pyLowerChar_idem (c : Char) :
    pyLowerChar (pyLowerChar c) = pyLowerChar c := by
  by_cases h : 65 ≤ c.toNat ∧ c.toNat ≤ 90
  · have h2 := pyLowerChar_upper h.1 h.2
    exact pyLowerChar_eq_self (by omega)
  · rw [pyLowerChar_eq_self h]
    exact pyLowerChar_eq_self h

theorem pyLowerChar_fix {d : Char} (hd : ¬ (65 ≤ d.toNat ∧ d.toNat ≤ 90))
    (hd2 : ¬ (97 ≤ d.toNat ∧ d.toNat ≤ 122)) (c : Char) :
    pyLowerChar c = d ↔ c = d := by
  constructor
  · intro h
    by_cases hc : 65 ≤ c.toNat ∧ c.toNat ≤ 90
    · have h2 := pyLowerChar_upper hc.1 hc.2
      rw [h] at h2
      exact absurd ⟨by omega, by omega⟩ hd2
    · rwa [pyLowerChar_eq_self hc] at h
  · intro h
    subst h
    exact pyLowerChar_eq_self hd

theorem isAsciiAlphaB_iff {c : Char} :
    isAsciiAlphaB c = true ↔
      (65 ≤ c.toNat ∧ c.toNat ≤ 90) ∨ (97 ≤ c.toNat ∧ c.toNat ≤ 122) := by
  simp [isAsciiAlphaB]

theorem isAsciiAlphaB_pyLower {c : Char} (h : isAsciiAlphaB c = true) :
    isAsciiAlphaB (pyLowerChar c) = true := by
  by_cases hc : 65 ≤ c.toNat ∧ c.toNat ≤ 90
  · have h2 := pyLowerChar_upper hc.1 hc.2
    rw [isAsciiAlphaB_iff]
    omega
  · rwa [pyLowerChar_eq_self hc]

theorem isSchemeChar_pyLower {c : Char} (h : isSchemeChar c = true) :
    isSchemeChar (pyLowerChar c) = true := by
  by_cases hc : 65 ≤ c.toNat ∧ c.toNat ≤ 90
  · have h2 := pyLowerChar_upper hc.1 hc.2
    have ha : isAsciiAlphaB (pyLowerChar c) = true := by
      rw [isAsciiAlphaB_iff]; omega
    simp [isSchemeChar, ha]
  · rwa [pyLowerChar_eq_self hc]

theorem isSchemeChar_no_colon {c : Char} (h : isSchemeChar c = true) : c ≠ ':' := by
  intro he
  subst he
  revert h
  decide

theorem okChar_iff {c : Char} :
    okChar c = true ↔ c.toNat ≠ 9 ∧ c.toNat ≠ 13 ∧ c.toNat ≠ 10 := by
  simp only [okChar, decide_not, Bool.not_eq_true', decide_eq_false_iff_not]
  rw [charEq_iff_toNat, charEq_iff_toNat, charEq_iff_toNat]
  show ¬ (c.toNat = 9 ∨ c.toNat = 13 ∨ c.toNat = 10) ↔ _
  constructor
  · intro h; exact ⟨fun he => h (Or.inl he), fun he => h (Or.inr (Or.inl he)),
      fun he => h (Or.inr (Or.inr he))⟩
  · rintro ⟨h1, h2, h3⟩ (he | he | he) <;> [exact h1 he; exact h2 he; exact h3 he]

theorem okChar_pyLower {c : Char} (h : okChar c = true) :
    okChar (pyLowerChar c) = true := by
  by_cases hc : 65 ≤ c.toNat ∧ c.toNat ≤ 90
  · have h2 := pyLowerChar_upper hc.1 hc.2
    rw [okChar_iff]
    omega
  · rwa [pyLowerChar_eq_self hc]

theorem okChar_of_schemeChar {c : Char} (h : isSchemeChar c = true) :
    okChar c = true := by
  rw [okChar_iff]
  simp only [isSchemeChar, Bool.or_eq_true, decide_eq_true_eq] at h
  rcases h with (((ha | hd) | h) | h) | h
  · rw [isAsciiAlphaB_iff] at ha
    omega
  · simp only [isDigitB, Bool.and_eq_true, decide_eq_true_eq] at hd
    omega
  · subst h; decide
  · subst h; decide
  · subst h; decide

/-! ### `pyLower` lemmas -/

theorem pyLower_idem (l : List Char) : pyLower (pyLower l) = pyLower l := by
  unfold pyLower
  rw [List.map_map]
  exact List.map_congr_left fun c _ => pyLowerChar_idem c

theorem pyLower_nil {l : List Char} : pyLower l = [] ↔ l = [] := by
  simp [pyLower]

theorem mem_pyLower_fix {d : Char} (hd : ¬ (65 ≤ d.toNat ∧ d.toNat ≤ 90))
    (hd2 : ¬ (97 ≤ d.toNat ∧ d.toNat ≤ 122)) (l : List Char) :
    d ∈ pyLower l ↔ d ∈ l := by
  simp only [pyLower, List.mem_map]
  constructor
  · rintro ⟨x, hx, he⟩
    rw [pyLowerChar_fix hd hd2] at he
    rwa [he] at hx
  · intro h
    exact ⟨d, h, pyLowerChar_eq_self hd⟩

/-! ### `breakAt` lemmas -/

theorem breakAt_eq_append (p : Char → Bool) (l : List Char) :
    (breakAt p l).1 ++ (breakAt p l).2 = l := by
  induction l with
  | nil => rfl
  | cons c cs ih =>
    cases hp : p c with
    | true => simp [breakAt, hp]
    | false => simp [breakAt, hp, ih]

theorem breakAt_fst_false (p : Char → Bool) :
    ∀ l : List Char, ∀ c ∈ (breakAt p l).1, p c = false := by
  intro l
  induction l with
  | nil => intro c hc; simp [breakAt] at hc
  | cons d ds ih =>
    intro c hc
    cases hp : p d with
    | true => simp [breakAt, hp] at hc
    | false =>
      simp only [breakAt, hp, Bool.false_eq_true, if_false, List.mem_cons] at hc
      rcases hc with rfl | hc
      · exact hp
      · exact ih c hc

theorem breakAt_snd_head (p : Char → Bool) :
    ∀ (l : List Char) (x : Char) (t : List Char),
      (breakAt p l).2 = x :: t → p x = true := by
  intro l
  induction l with
  | nil => intro x t h; simp [breakAt] at h
  | cons d ds ih =>
    intro x t h
    cases hp : p d with
    | true =>
      simp only [breakAt, hp, if_true] at h
      cases h
      exact hp
    | false =>
      simp only [breakAt, hp, Bool.false_eq_true, if_false] at h
      exact ih x t h

theorem breakAt_none {p : Char → Bool} {l : List Char} (h : ∀ c ∈ l, p c = false) :
    breakAt p l = (l, []) := by
  induction l with
  | nil => rfl
  | cons c cs ih =>
    have hc : p c = false := h c (List.mem_cons_self c cs)
    simp only [breakAt, hc, Bool.false_eq_true, if_false]
    rw [ih fun d hd => h d (List.mem_cons_of_mem c hd)]

theorem breakAt_app {p : Char → Bool} {pre rest : List Char} {x : Char}
    (h : ∀ c ∈ pre, p c = false) (hx : p x = true) :
    breakAt p (pre ++ x :: rest) = (pre, x :: rest) := by
  induction pre with
  | nil => simp [breakAt, hx]
  | cons c cs ih =>
    have hc : p c = false := h c (List.mem_cons_self c cs)
    have hih := ih fun d hd => h d (List.mem_cons_of_mem c hd)
    simp only [List.cons_append, breakAt, hc, Bool.false_eq_true, if_false,
      List.append_eq, hih]

/-! ### `collapseSlashes` and the no-duplicate-slash predicate -/

/-- No two adjacent `/` characters. -/
def NoDS : List Char → Prop
  | [] => True
  | [_] => True
  | c :: d :: rest => ¬ (c = '/' ∧ d = '/') ∧ NoDS (d :: rest)

theorem collapse_head : ∀ l : List Char, (collapseSlashes l).head? = l.head?
  | [] => rfl
  | [_] => rfl
  | c :: d :: rest => by
    by_cases h : c = '/' ∧ d = '/'
    · have ih := collapse_head (d :: rest)
      simp only [collapseSlashes, if_pos h, ih, List.head?_cons]
      rw [h.1, h.2]
    · simp only [collapseSlashes, if_neg h, List.head?_cons]

theorem collapse_ne_nil {l : List Char} (h : l ≠ []) : collapseSlashes l ≠ [] := by
  intro he
  have := collapse_head l
  rw [he] at this
  cases l with
  | nil => exact h rfl
  | cons c cs => simp at this

theorem noDS_collapse : ∀ l : List Char, NoDS (collapseSlashes l)
  | [] => trivial
  | [_] => trivial
  | c :: d :: rest => by
    by_cases h : c = '/' ∧ d = '/'
    · simp only [collapseSlashes, if_pos h]
      exact noDS_collapse (d :: rest)
    · simp only [collapseSlashes, if_neg h]
      have ih := noDS_collapse (d :: rest)
      have hh := collapse_head (d :: rest)
      cases hc : collapseSlashes (d :: rest) with
      | nil => trivial
      | cons e t =>
        rw [hc] at ih hh
        simp only [List.head?_cons, Option.some.injEq] at hh
        subst hh
        exact ⟨h, ih⟩

theorem collapse_eq_self : ∀ l : List Char, NoDS l → collapseSlashes l = l
  | [], _ => rfl
  | [_], _ => rfl
  | c :: d :: rest, hnds => by
    simp only [collapseSlashes, if_neg hnds.1]
    rw [collapse_eq_self (d :: rest) hnds.2]

theorem collapse_subset : ∀ l : List Char, collapseSlashes l ⊆ l
  | [] => fun _ ha => ha
  | [_] => fun _ ha => ha
  | c :: d :: rest => by
    by_cases h : c = '/' ∧ d = '/'
    · simp only [collapseSlashes, if_pos h]
      exact (collapse_subset (d :: rest)).trans (List.subset_cons_self c (d :: rest))
    · simp only [collapseSlashes, if_neg h]
      exact List.cons_subset_cons c (collapse_subset (d :: rest))

theorem noDS_take2 {l : List Char} (h : NoDS l) : l.take 2 ≠ ['/', '/'] := by
  intro he
  cases l with
  | nil => simp at he
  | cons c cs =>
    cases cs with
    | nil => simp at he
    | cons d t =>
      simp only [List.take_succ_cons, List.take_zero, List.cons.injEq] at he
      exact h.1 ⟨he.1, he.2.1⟩

theorem noDS_dropLast : ∀ {l : List Char}, NoDS l → NoDS l.dropLast
  | [], _ => trivial
  | [_], _ => trivial
  | [_, _], _ => trivial
  | c :: d :: e :: t, h => by
    show NoDS (c :: d :: (e :: t).dropLast)
    exact ⟨h.1, noDS_dropLast h.2⟩

theorem noDS_last_two :
    ∀ {l : List Char}, NoDS l → l.getLast? = some '/' →
      l.dropLast.getLast? ≠ some '/'
  | [], _, hl => by simp at hl
  | [c], _, hl => by
    intro hd
    simp at hd
  | [c, d], h, hl => by
    intro hd
    simp only [List.getLast?_cons_cons, List.getLast?_singleton,
      Option.some.injEq] at hl
    have hdrop : ([c, d] : List Char).dropLast = [c] := rfl
    rw [hdrop] at hd
    simp only [List.getLast?_singleton, Option.some.injEq] at hd
    exact h.1 ⟨hd, hl⟩
  | c :: d :: e :: t, h, hl => by
    have ih := noDS_last_two (l := d :: e :: t) h.2 (by
      rw [← List.getLast?_cons_cons (a := c)]
      exact hl)
    intro hd
    apply ih
    have hdrop : (c :: d :: e :: t).dropLast = c :: (d :: e :: t).dropLast := rfl
    rw [hdrop] at hd
    have hne : (d :: e :: t).dropLast = d :: (e :: t).dropLast := rfl
    rw [hne] at hd ⊢
    rwa [List.getLast?_cons_cons] at hd

/-! ### `stripTrail` lemmas -/

theorem stripTrail_ne_nil {l : List Char} (h : l ≠ []) : stripTrail l ≠ [] := by
  unfold stripTrail
  split
  · rename_i hcond
    intro he
    have hl := congrArg List.length he
    simp only [List.length_dropLast, List.length_nil] at hl
    omega
  · exact h

theorem noDS_stripTrail {l : List Char} (h : NoDS l) : NoDS (stripTrail l) := by
  unfold stripTrail
  split
  · exact noDS_dropLast h
  · exact h

theorem stripTrail_subset (l : List Char) : stripTrail l ⊆ l := by
  unfold stripTrail
  split
  · exact List.dropLast_subset l
  · exact fun a ha => ha

theorem stripTrail_take1 {l : List Char} (h : l.take 1 = ['/']) :
    (stripTrail l).take 1 = ['/'] := by
  unfold stripTrail
  split
  · rename_i hcond
    rw [List.dropLast_eq_take, List.take_take]
    have : min 1 (l.length - 1) = 1 := by omega
    rw [this, h]
  · exact h

theorem stripTrail_last {l : List Char} (hnds : NoDS l) :
    stripTrail l = ['/'] ∨ (stripTrail l).getLast? ≠ some '/' := by
  unfold stripTrail
  split
  · rename_i hcond
    exact Or.inr (noDS_last_two hnds hcond.2)
  · rename_i hcond
    rw [not_and_or] at hcond
    rcases hcond with hlen | hlast
    · cases l with
      | nil => exact Or.inr (by simp)
      | cons c cs =>
        cases cs with
        | nil =>
          by_cases hc : c = '/'
          · subst hc; exact Or.inl rfl
          · exact Or.inr (by simp [hc])
        | cons d t => simp at hlen
    · exact Or.inr hlast

theorem take1_append {a b : List Char} (h : a ≠ []) : (a ++ b).take 1 = a.take 1 := by
  cases a with
  | nil => exact absurd rfl h
  | cons c cs => simp

/-! ### Structure of `urlsplit` components -/

/-- A well-formed scheme as produced by `splitScheme` (or the default
`"http"`): nonempty, starts with an ASCII letter, made of scheme
characters, already lowercase. -/
def SchemeGood (s : List Char) : Prop :=
  s ≠ [] ∧ isAsciiAlphaB (s.headD ' ') = true ∧ s.all isSchemeChar = true ∧
    pyLower s = s

theorem schemeGood_http : SchemeGood ("http".toList) :=
  ⟨by decide, by decide, by decide, by decide⟩

theorem schemeGood_ok {s : List Char} (h : SchemeGood s) :
    ∀ c ∈ s, okChar c = true := by
  intro c hc
  have := h.2.2.1
  rw [List.all_eq_true] at this
  exact okChar_of_schemeChar (this c hc)

theorem schemeGood_no_colon {s : List Char} (h : SchemeGood s) : ':' ∉ s := by
  intro hc
  have := h.2.2.1
  rw [List.all_eq_true] at this
  exact isSchemeChar_no_colon (this ':' hc) rfl

theorem splitScheme_fst (u : List Char) :
    (splitScheme u).1 = [] ∨ SchemeGood (splitScheme u).1 := by
  unfold splitScheme
  split
  next pre x rest heq =>
    split
    next hgood =>
      right
      obtain ⟨h1, h2, h3⟩ := hgood
      refine ⟨?_, ?_, ?_, pyLower_idem pre⟩
      · rw [Ne, pyLower_nil]
        exact h1
      · cases pre with
        | nil => exact absurd rfl h1
        | cons c cs =>
          simp only [pyLower, List.map_cons, List.headD_cons] at h2 ⊢
          exact isAsciiAlphaB_pyLower h2
      · rw [List.all_eq_true]
        intro c hc
        simp only [pyLower, List.mem_map] at hc
        obtain ⟨x, hx, rfl⟩ := hc
        rw [List.all_eq_true] at h3
        exact isSchemeChar_pyLower (h3 x hx)
    next => exact Or.inl rfl
  next => exact Or.inl rfl

theorem splitScheme_snd_subset (u : List Char) : (splitScheme u).2 ⊆ u := by
  unfold splitScheme
  split
  next pre x rest heq =>
    split
    next =>
      intro c hc
      have happ := breakAt_eq_append (fun c => c = ':') u
      rw [heq] at happ
      rw [← happ]
      exact List.mem_append_right _ (List.mem_cons_of_mem _ hc)
    next => exact fun c hc => hc
  next => exact fun c hc => hc

theorem removeUnsafe_ok (u : List Char) :
    ∀ c ∈ removeUnsafe u, okChar c = true := by
  intro c hc
  exact (List.mem_filter.mp hc).2

theorem usScheme_good (u : List Char) :
    usScheme u = [] ∨ SchemeGood (usScheme u) :=
  splitScheme_fst _

theorem usRest1_subset (u : List Char) : usRest1 u ⊆ removeUnsafe u :=
  splitScheme_snd_subset _

theorem usNetloc_subset (u : List Char) : usNetloc u ⊆ removeUnsafe u := by
  unfold usNetloc usNetlocPair
  split
  · intro c hc
    unfold splitNetloc at hc
    have happ := breakAt_eq_append (fun c => c = '/' ∨ c = '?' ∨ c = '#')
      ((usRest1 u).drop 2)
    have hmem : c ∈ (usRest1 u).drop 2 := by
      rw [← happ]
      exact List.mem_append_left _ hc
    exact usRest1_subset u (List.drop_subset _ _ hmem)
  · intro c hc
    simp at hc

theorem usNetloc_delim (u : List Char) :
    ∀ c ∈ usNetloc u, c ≠ '/' ∧ c ≠ '?' ∧ c ≠ '#' := by
  unfold usNetloc usNetlocPair
  split
  · intro c hc
    unfold splitNetloc at hc
    have hfalse := breakAt_fst_false (fun c => c = '/' ∨ c = '?' ∨ c = '#')
      ((usRest1 u).drop 2) c hc
    have hnot : ¬ (c = '/' ∨ c = '?' ∨ c = '#') := of_decide_eq_false hfalse
    exact ⟨fun h => hnot (Or.inl h), fun h => hnot (Or.inr (Or.inl h)),
      fun h => hnot (Or.inr (Or.inr h))⟩
  · intro c hc
    simp at hc

theorem usRest2_subset (u : List Char) : usRest2 u ⊆ removeUnsafe u := by
  unfold usRest2 usNetlocPair
  split
  · intro c hc
    unfold splitNetloc at hc
    have happ := breakAt_eq_append (fun c => c = '/' ∨ c = '?' ∨ c = '#')
      ((usRest1 u).drop 2)
    have hmem : c ∈ (usRest1 u).drop 2 := by
      rw [← happ]
      exact List.mem_append_right _ hc
    exact usRest1_subset u (List.drop_subset _ _ hmem)
  · exact usRest1_subset u

theorem usRest2_head {u : List Char} (hn : usNetloc u ≠ []) :
    usRest2 u = [] ∨
      ∃ x t, usRest2 u = x :: t ∧ (x = '/' ∨ x = '?' ∨ x = '#') := by
  unfold usRest2 usNetlocPair
  unfold usNetloc usNetlocPair at hn
  split
  next hcond =>
    rw [if_pos hcond] at hn
    cases hr : (splitNetloc ((usRest1 u).drop 2)).2 with
    | nil => exact Or.inl rfl
    | cons x t =>
      right
      refine ⟨x, t, rfl, ?_⟩
      unfold splitNetloc at hr
      have := breakAt_snd_head (fun c => c = '/' ∨ c = '?' ∨ c = '#')
        ((usRest1 u).drop 2) x t hr
      exact of_decide_eq_true this
  next hcond =>
    rw [if_neg hcond] at hn
    exact absurd rfl hn

theorem usFrag1_subset (u : List Char) : (usFragPair u).1 ⊆ usRest2 u := by
  intro c hc
  have happ := breakAt_eq_append (fun c => c = '#') (usRest2 u)
  rw [← happ]
  exact List.mem_append_left _ hc

theorem usFrag1_no_hash (u : List Char) : '#' ∉ (usFragPair u).1 := by
  intro hc
  have := breakAt_fst_false (fun c => c = '#') (usRest2 u) '#' hc
  simp at this

theorem usPath_subset2 (u : List Char) : usPath u ⊆ (usFragPair u).1 := by
  intro c hc
  have happ := breakAt_eq_append (fun c => c = '?') (usFragPair u).1
  rw [← happ]
  exact List.mem_append_left _ hc

theorem usPath_subset (u : List Char) : usPath u ⊆ removeUnsafe u :=
  fun _ hc => usRest2_subset u (usFrag1_subset u (usPath_subset2 u hc))

theorem usPath_no_qm (u : List Char) : '?' ∉ usPath u := by
  intro hc
  have := breakAt_fst_false (fun c => c = '?') (usFragPair u).1 '?' hc
  simp at this

theorem usPath_no_hash (u : List Char) : '#' ∉ usPath u :=
  fun hc => usFrag1_no_hash u (usPath_subset2 u hc)

theorem usQuery_subset (u : List Char) : usQuery u ⊆ removeUnsafe u := by
  unfold usQuery
  split
  next x rest heq =>
    intro c hc
    have happ := breakAt_eq_append (fun c => c = '?') (usFragPair u).1
    have hmem : c ∈ (usFragPair u).1 := by
      rw [← happ]
      apply List.mem_append_right
      unfold usQueryPair at heq
      rw [heq]
      exact List.mem_cons_of_mem _ hc
    exact usRest2_subset u (usFrag1_subset u hmem)
  next =>
    intro c hc
    simp at hc

theorem usPath_take1 {u : List Char} (h : usPath u ≠ []) :
    (usPath u).take 1 = (usRest2 u).take 1 := by
  have h1 : (usQueryPair u).1 ++ (usQueryPair u).2 = (usFragPair u).1 :=
    breakAt_eq_append _ _
  have h2 : (usFragPair u).1 ++ (usFragPair u).2 = usRest2 u :=
    breakAt_eq_append _ _
  have hfr : (usFragPair u).1 ≠ [] := by
    intro he
    have hnil : usPath u = [] := by
      unfold usPath usQueryPair
      rw [he]
      rfl
    exact h hnil
  calc (usPath u).take 1
      = ((usPath u) ++ (usQueryPair u).2).take 1 := (take1_append h).symm
    _ = ((usQueryPair u).1 ++ (usQueryPair u).2).take 1 := rfl
    _ = ((usFragPair u).1).take 1 := by rw [h1]
    _ = (((usFragPair u).1) ++ (usFragPair u).2).take 1 := (take1_append hfr).symm
    _ = (usRest2 u).take 1 := by rw [h2]

theorem usPath_slash {u : List Char} (hn : usNetloc u ≠ []) :
    usPath u = [] ∨ (usPath u).take 1 = ['/'] := by
  by_cases hp : usPath u = []
  · exact Or.inl hp
  · right
    have ht := usPath_take1 hp
    rcases usRest2_head hn with h0 | ⟨x, t, hxt, hx⟩
    · rw [h0] at ht
      simp only [List.take_nil] at ht
      cases hup : usPath u with
      | nil => exact absurd hup hp
      | cons c cs => rw [hup] at ht; simp at ht
    · rw [hxt] at ht
      simp only [List.take_succ_cons, List.take_zero] at ht
      have hxmem : x ∈ usPath u := by
        cases hup : usPath u with
        | nil => exact absurd hup hp
        | cons c cs =>
          have he : c = x := by
            rw [hup] at ht
            simpa using ht
          rw [← he]
          exact List.mem_cons_self c cs
      rcases hx with h | h | h
      · rw [ht, h]
      · exact absurd (h ▸ hxmem) (usPath_no_qm u)
      · exact absurd (h ▸ hxmem) (usPath_no_hash u)

theorem urlsplit_ok_iff {u : List Char} {r : SplitResult} :
    urlsplit u = Except.ok r ↔
      badBrackets (usNetloc u) = false ∧
        r = ⟨usScheme u, usNetloc u, usPath u, usQuery u, usFrag u⟩ := by
  unfold urlsplit
  cases hbb : badBrackets (usNetloc u) with
  | false => simp [eq_comm]
  | true => simp

/-! ### `splitparams` and `urlparse` lemmas -/

theorem breakAt_snd_ne {p : Char → Bool} {l : List Char}
    (h : ∃ c ∈ l, p c = true) : (breakAt p l).2 ≠ [] := by
  intro he
  have happ := breakAt_eq_append p l
  rw [he, List.append_nil] at happ
  obtain ⟨c, hc, hp⟩ := h
  have := breakAt_fst_false p l c (by rw [happ]; exact hc)
  rw [hp] at this
  cases this

theorem splitLastSlash_spec {l before after : List Char}
    (h : splitLastSlash l = some (before, after)) :
    before ++ '/' :: after = l ∧ '/' ∉ after := by
  unfold splitLastSlash at h
  split at h
  next revAfter revBefore heq =>
    injection h with h2
    injection h2 with hb ha
    subst hb
    subst ha
    have happ := breakAt_eq_append (fun c => c = '/') l.reverse
    rw [heq] at happ
    constructor
    · have hrev := congrArg List.reverse happ
      rw [List.reverse_reverse] at hrev
      rw [← hrev]
      simp [List.reverse_append, List.reverse_cons, List.append_assoc]
    · intro hmem
      have hmem2 : '/' ∈ revAfter := List.mem_reverse.mp hmem
      have := breakAt_fst_false (fun c => c = '/') l.reverse '/'
        (by rw [heq]; exact hmem2)
      simp at this
  next => simp at h

theorem splitparams_fst_subset (l : List Char) : (splitparams l).1 ⊆ l := by
  unfold splitparams
  split
  · split
    next before after hs =>
      split
      next a1 a2 heq2 =>
        obtain ⟨happ, hnot⟩ := splitLastSlash_spec hs
        intro c hc
        rw [← happ]
        have ha1 : a1 ++ ';' :: a2 = after := by
          have h3 := breakAt_eq_append (fun c => c = ';') after
          rw [heq2] at h3
          exact h3
        rw [List.mem_append] at hc ⊢
        rcases hc with hc | hc
        · exact Or.inl hc
        · right
          rcases List.mem_cons.mp hc with rfl | hc
          · exact List.mem_cons_self _ _
          · apply List.mem_cons_of_mem
            rw [← ha1]
            exact List.mem_append_left _ hc
      next => exact fun c hc => hc
    next => exact fun c hc => hc
  · split
    next a1 a2 heq2 =>
      intro c hc
      have h3 := breakAt_eq_append (fun c => c = ';') l
      rw [heq2] at h3
      rw [← h3]
      exact List.mem_append_left _ hc
    next => exact fun c hc => hc

theorem splitparams_take1 {l : List Char} (h : l.take 1 = ['/']) :
    ((splitparams l).1).take 1 = ['/'] := by
  unfold splitparams
  split
  next hslash =>
    split
    next before after hs =>
      split
      next a1 a2 heq2 =>
        obtain ⟨happ, hnot⟩ := splitLastSlash_spec hs
        by_cases hb : before = []
        · subst hb
          simp
        · rw [take1_append hb]
          rw [← happ, take1_append hb] at h
          exact h
      next => exact h
    next => exact h
  next hslash =>
    exfalso
    cases l with
    | nil => simp at h
    | cons c cs =>
      simp only [List.take_succ_cons, List.take_zero, List.cons.injEq] at h
      apply hslash
      rw [h.1]
      exact List.mem_cons_self '/' cs

theorem upPathPair_fst_subset (l : List Char) : (upPathPair l).1 ⊆ l := by
  unfold upPathPair
  split
  · exact splitparams_fst_subset l
  · exact fun c hc => hc

theorem upPathPair_take1 {l : List Char} (h : l.take 1 = ['/']) :
    ((upPathPair l).1).take 1 = ['/'] := by
  unfold upPathPair
  split
  · exact splitparams_take1 h
  · exact h

theorem upPathPair_no_semi {l : List Char} (h : ';' ∉ l) : upPathPair l = (l, []) := by
  unfold upPathPair
  rw [if_neg h]

theorem urlparse_ok_iff {u : List Char} {p : ParseResult} :
    urlparse u = Except.ok p ↔
      badBrackets (usNetloc u) = false ∧
        p = ⟨usScheme u, usNetloc u, (upPathPair (usPath u)).1,
          (upPathPair (usPath u)).2, usQuery u, usFrag u⟩ := by
  unfold urlparse
  cases hs : urlsplit u with
  | error e =>
    have hiff := urlsplit_ok_iff (u := u)
      (r := ⟨usScheme u, usNetloc u, usPath u, usQuery u, usFrag u⟩)
    constructor
    · intro h
      simp [Except.bind] at h
    · rintro ⟨hb, _⟩
      have := hiff.mpr ⟨hb, rfl⟩
      rw [hs] at this
      cases this
  | ok s =>
    obtain ⟨hb, hseq⟩ := urlsplit_ok_iff.mp hs
    subst hseq
    simp only [Except.bind, hb, true_and]
    show Except.ok _ = Except.ok p ↔ _
    simp [eq_comm]

/-! ### Re-parsing a normalized URL -/

theorem splitScheme_exact {s rest : List Char} (hs : SchemeGood s) :
    splitScheme (s ++ ':' :: rest) = (s, rest) := by
  unfold splitScheme
  have hb : breakAt (fun c => c = ':') (s ++ ':' :: rest) = (s, ':' :: rest) := by
    apply breakAt_app
    · intro c hc
      simp only [decide_eq_false_iff_not]
      intro he
      exact schemeGood_no_colon hs (he ▸ hc)
    · simp
  simp only [hb]
  rw [if_pos ⟨hs.1, hs.2.1, hs.2.2.1⟩]
  rw [hs.2.2.2]

theorem reparse_roundtrip {scheme netloc path : List Char}
    (hs : SchemeGood scheme)
    (hnd : ∀ c ∈ netloc, c ≠ '/' ∧ c ≠ '?' ∧ c ≠ '#')
    (hbr : badBrackets netloc = false)
    (hnok : ∀ c ∈ netloc, okChar c = true)
    (hpok : ∀ c ∈ path, okChar c = true)
    (hpne : path ≠ [])
    (hp2 : path.take 2 ≠ ['/', '/'])
    (hph : netloc ≠ [] → path.take 1 = ['/'])
    (hq : '?' ∉ path) (hh : '#' ∉ path) (hsemi : ';' ∉ path) :
    urlparse (urlunsplit scheme netloc path [] []) =
      Except.ok ⟨scheme, netloc, path, [], [], []⟩ := by
  have hv : urlunsplit scheme netloc path [] [] =
      scheme ++ ':' :: (if netloc = [] then path
        else '/' :: '/' :: (netloc ++ path)) := by
    by_cases hn : netloc = []
    · subst hn
      have c1 : ¬ (([] : List Char) ≠ [] ∨ (path ≠ [] ∧ path.take 2 = ['/', '/'])) := by
        rintro (h | ⟨_, h2⟩)
        · exact h rfl
        · exact hp2 h2
      have c2 : ¬ (([] : List Char) ≠ []) := by simp
      have c3 : ([] : List Char) = [] := rfl
      simp only [urlunsplit, if_neg c1, if_pos hs.1, if_neg c2, if_pos c3, if_true]
    · have c1 : netloc ≠ [] ∨ (path ≠ [] ∧ path.take 2 = ['/', '/']) := Or.inl hn
      have c2 : ¬ (path ≠ [] ∧ path.take 1 ≠ ['/']) := by
        rintro ⟨_, hne⟩
        exact hne (hph hn)
      have c3 : ¬ (([] : List Char) ≠ []) := by simp
      simp only [urlunsplit, if_pos c1, if_neg c2, if_pos hs.1, if_neg c3, if_neg hn]
  have hok : ∀ c ∈ urlunsplit scheme netloc path [] [], okChar c = true := by
    rw [hv]
    intro c hc
    rw [List.mem_append] at hc
    rcases hc with hc | hc
    · exact schemeGood_ok hs c hc
    · rcases List.mem_cons.mp hc with rfl | hc
      · decide
      · by_cases hn : netloc = []
        · rw [if_pos hn] at hc
          exact hpok c hc
        · rw [if_neg hn] at hc
          rcases List.mem_cons.mp hc with rfl | hc
          · decide
          · rcases List.mem_cons.mp hc with rfl | hc
            · decide
            · rw [List.mem_append] at hc
              rcases hc with hc | hc
              · exact hnok c hc
              · exact hpok c hc
  have hA : removeUnsafe (urlunsplit scheme netloc path [] []) =
      urlunsplit scheme netloc path [] [] :=
    List.filter_eq_self.mpr hok
  have husp : splitScheme (removeUnsafe (urlunsplit scheme netloc path [] [])) =
      (scheme, if netloc = [] then path else '/' :: '/' :: (netloc ++ path)) := by
    rw [hA, hv]
    exact splitScheme_exact hs
  have husch : usScheme (urlunsplit scheme netloc path [] []) = scheme := by
    unfold usScheme
    rw [husp]
  have husr1 : usRest1 (urlunsplit scheme netloc path [] []) =
      (if netloc = [] then path else '/' :: '/' :: (netloc ++ path)) := by
    unfold usRest1
    rw [husp]
  have husnp : usNetlocPair (urlunsplit scheme netloc path [] []) = (netloc, path) := by
    unfold usNetlocPair
    rw [husr1]
    by_cases hn : netloc = []
    · rw [if_pos hn, if_neg (by rw [if_pos hn] at *; exact hp2), hn]
    · obtain ⟨pt, hpt⟩ : ∃ pt, path = '/' :: pt := by
        have h1 := hph hn
        cases path with
        | nil => simp at h1
        | cons c cs =>
          simp only [List.take_succ_cons, List.take_zero, List.cons.injEq] at h1
          exact ⟨cs, by rw [h1.1]⟩
      rw [if_neg hn]
      rw [if_pos (by simp)]
      simp only [List.drop_succ_cons, List.drop_zero]
      unfold splitNetloc
      rw [hpt]
      rw [@breakAt_app (fun c => c = '/' ∨ c = '?' ∨ c = '#') netloc pt
        '/' ?hpre ?hx]
      case hpre =>
        intro c hc
        have h3 := hnd c hc
        simp only [decide_eq_false_iff_not]
        rintro (he | he | he)
        · exact h3.1 he
        · exact h3.2.1 he
        · exact h3.2.2 he
      case hx => simp
  have husn : usNetloc (urlunsplit scheme netloc path [] []) = netloc := by
    unfold usNetloc
    rw [husnp]
  have husr2 : usRest2 (urlunsplit scheme netloc path [] []) = path := by
    unfold usRest2
    rw [husnp]
  have husfp : usFragPair (urlunsplit scheme netloc path [] []) = (path, []) := by
    unfold usFragPair
    rw [husr2]
    apply breakAt_none
    intro c hc
    simp only [decide_eq_false_iff_not]
    intro he
    exact hh (he ▸ hc)
  have husqp : usQueryPair (urlunsplit scheme netloc path [] []) = (path, []) := by
    unfold usQueryPair
    rw [husfp]
    apply breakAt_none
    intro c hc
    simp only [decide_eq_false_iff_not]
    intro he
    exact hq (he ▸ hc)
  have huspath : usPath (urlunsplit scheme netloc path [] []) = path := by
    unfold usPath
    rw [husqp]
  have husquery : usQuery (urlunsplit scheme netloc path [] []) = [] := by
    unfold usQuery
    rw [husqp]
  have husfrag : usFrag (urlunsplit scheme netloc path [] []) = [] := by
    unfold usFrag
    rw [husfp]
  apply urlparse_ok_iff.mpr
  constructor
  · rw [husn]
    exact hbr
  · rw [husch, husn, huspath, husquery, husfrag, upPathPair_no_semi hsemi]

/-! ### Stability of normalized URLs -/

theorem take1_iff_head {l : List Char} {c : Char} :
    l.take 1 = [c] ↔ l.head? = some c := by
  cases l <;> simp

theorem stripTrail_idem {l : List Char}
    (h : l = ['/'] ∨ l.getLast? ≠ some '/') : stripTrail l = l := by
  unfold stripTrail
  split
  next hc =>
    rcases h with rfl | h2
    · exfalso
      have := hc.1
      simp at this
    · exact absurd hc.2 h2
  next => rfl

theorem strip_nil : strip_tracking_params [] = [] := rfl

theorem urlunparse_nil_params (s n p q f : List Char) :
    urlunparse s n p [] q f = urlunsplit s n p q f := by
  unfold urlunparse
  have c : ¬ (([] : List Char) ≠ []) := by simp
  rw [if_neg c]

theorem usQuery_nil {u : List Char} (h : '?' ∉ removeUnsafe u) : usQuery u = [] := by
  have hfr1 : '?' ∉ (usFragPair u).1 :=
    fun hc => h (usRest2_subset u (usFrag1_subset u hc))
  have hnone : breakAt (fun c => c = '?') (usFragPair u).1 = ((usFragPair u).1, []) := by
    apply breakAt_none
    intro c hc
    simp only [decide_eq_false_iff_not]
    intro he
    exact hfr1 (he ▸ hc)
  unfold usQuery usQueryPair
  rw [hnone]

theorem pyLowerChar_delim {x : Char} (hx : x ≠ '/' ∧ x ≠ '?' ∧ x ≠ '#') :
    pyLowerChar x ≠ '/' ∧ pyLowerChar x ≠ '?' ∧ pyLowerChar x ≠ '#' := by
  refine ⟨?_, ?_, ?_⟩
  · rw [Ne, pyLowerChar_fix (by decide) (by decide)]
    exact hx.1
  · rw [Ne, pyLowerChar_fix (by decide) (by decide)]
    exact hx.2.1
  · rw [Ne, pyLowerChar_fix (by decide) (by decide)]
    exact hx.2.2

theorem badBrackets_iff {nl : List Char} :
    badBrackets nl = true ↔
      (('[' ∈ nl ∧ ']' ∉ nl) ∨ (']' ∈ nl ∧ '[' ∉ nl)) := by
  simp [badBrackets]

theorem badBrackets_pyLower (nl : List Char) :
    badBrackets (pyLower nl) = badBrackets nl := by
  have hiff : (badBrackets (pyLower nl) = true) ↔ (badBrackets nl = true) := by
    rw [badBrackets_iff, badBrackets_iff,
      mem_pyLower_fix (d := '[') (by decide) (by decide),
      mem_pyLower_fix (d := ']') (by decide) (by decide)]
  cases hb : badBrackets nl with
  | true => exact hiff.mpr hb
  | false =>
    cases hbp : badBrackets (pyLower nl) with
    | false => rfl
    | true =>
      rw [hb] at hiff
      exact absurd (hiff.mp hbp) (by simp)

theorem normalize_stable {S N P : List Char}
    (hs : SchemeGood S)
    (hnl : pyLower N = N)
    (hnd : ∀ c ∈ N, c ≠ '/' ∧ c ≠ '?' ∧ c ≠ '#')
    (hbr : badBrackets N = false)
    (hnok : ∀ c ∈ N, okChar c = true)
    (hpok : ∀ c ∈ P, okChar c = true)
    (hnds : NoDS P)
    (hlast : P = ['/'] ∨ P.getLast? ≠ some '/')
    (hpne : P ≠ [])
    (hph : N ≠ [] → P.take 1 = ['/'])
    (hq : '?' ∉ P) (hh : '#' ∉ P) (hsemi : ';' ∉ P) :
    normalize_url (urlunsplit S N P [] []) =
      Except.ok (urlunsplit S N P [] []) := by
  have hp2 : P.take 2 ≠ ['/', '/'] := noDS_take2 hnds
  have hrp := reparse_roundtrip hs hnd hbr hnok hpok hpne hp2 hph hq hh hsemi
  unfold normalize_url
  rw [hrp]
  simp only [Except.map]
  congr 1
  have h1 : normScheme ⟨S, N, P, [], [], []⟩ = S := by
    simp only [normScheme]
    rw [if_neg hs.1]
    exact hs.2.2.2
  have h2 : normNetloc ⟨S, N, P, [], [], []⟩ = N := hnl
  have h3 : normPath ⟨S, N, P, [], [], []⟩ = P := by
    simp only [normPath]
    rw [if_neg hpne]
    rw [collapse_eq_self P hnds]
    exact stripTrail_idem hlast
  have h4 : normQuery ⟨S, N, P, [], [], []⟩ = [] := rfl
  rw [h1, h2, h3, h4]
  exact urlunparse_nil_params S N P [] []

theorem normalize_url_idem_aux {u v : List Char}
    (hq0 : '?' ∉ u) (hsemi0 : ';' ∉ u)
    (h : normalize_url u = Except.ok v) :
    normalize_url v = Except.ok v := by
  unfold normalize_url at h
  cases hp : urlparse u with
  | error e =>
    rw [hp] at h
    simp [Except.map] at h
  | ok p =>
    rw [hp] at h
    simp only [Except.map, Except.ok.injEq] at h
    obtain ⟨hbb, hpe⟩ := urlparse_ok_iff.mp hp
    have hqc : '?' ∉ removeUnsafe u := fun hc => hq0 (List.mem_filter.mp hc).1
    have hsc : ';' ∉ removeUnsafe u := fun hc => hsemi0 (List.mem_filter.mp hc).1
    have hquery : usQuery u = [] := usQuery_nil hqc
    have hsp : ';' ∉ usPath u := fun hc => hsc (usPath_subset u hc)
    have hupp : upPathPair (usPath u) = (usPath u, []) := upPathPair_no_semi hsp
    have hfs : p.scheme = usScheme u := by rw [hpe]
    have hfn : p.netloc = usNetloc u := by rw [hpe]
    have hfp : p.path = usPath u := by rw [hpe, hupp]
    have hfq : p.query = usQuery u := by rw [hpe]
    have hnq : normQuery p = [] := by
      unfold normQuery
      rw [hfq, hquery]
      exact strip_nil
    rw [hnq] at h
    have hveq : v = urlunsplit (normScheme p) (normNetloc p) (normPath p) [] [] := by
      rw [← h, urlunparse_nil_params]
    have hS : SchemeGood (normScheme p) := by
      unfold normScheme
      rw [hfs]
      rcases usScheme_good u with h0 | hg
      · rw [if_pos h0]
        exact ⟨by decide, by decide, by decide, by decide⟩
      · rw [if_neg hg.1, hg.2.2.2]
        exact hg
    have hN : normNetloc p = pyLower (usNetloc u) := by
      unfold normNetloc
      rw [hfn]
    have hnl : pyLower (normNetloc p) = normNetloc p := by
      rw [hN, pyLower_idem]
    have hnd2 : ∀ c ∈ normNetloc p, c ≠ '/' ∧ c ≠ '?' ∧ c ≠ '#' := by
      rw [hN]
      intro c hc
      simp only [pyLower, List.mem_map] at hc
      obtain ⟨x, hx, rfl⟩ := hc
      exact pyLowerChar_delim (usNetloc_delim u x hx)
    have hbr2 : badBrackets (normNetloc p) = false := by
      rw [hN, badBrackets_pyLower]
      exact hbb
    have hnok2 : ∀ c ∈ normNetloc p, okChar c = true := by
      rw [hN]
      intro c hc
      simp only [pyLower, List.mem_map] at hc
      obtain ⟨x, hx, rfl⟩ := hc
      exact okChar_pyLower (removeUnsafe_ok u x (usNetloc_subset u hx))
    have hbase : normPath p = stripTrail (collapseSlashes
        (if usPath u = [] then ['/'] else usPath u)) := by
      unfold normPath
      rw [hfp]
    have hbne : (if usPath u = [] then ['/'] else usPath u) ≠ [] := by
      split
      next => simp
      next h0 => exact h0
    have hbok : ∀ c ∈ (if usPath u = [] then ['/'] else usPath u), okChar c = true := by
      split
      next =>
        intro c hc
        simp only [List.mem_singleton] at hc
        subst hc
        decide
      next =>
        intro c hc
        exact removeUnsafe_ok u c (usPath_subset u hc)
    have hPsub : ∀ c ∈ normPath p, c ∈ (if usPath u = [] then ['/'] else usPath u) := by
      rw [hbase]
      intro c hc
      exact collapse_subset _ (stripTrail_subset _ hc)
    have hpok2 : ∀ c ∈ normPath p, okChar c = true :=
      fun c hc => hbok c (hPsub c hc)
    have hnds2 : NoDS (normPath p) := by
      rw [hbase]
      exact noDS_stripTrail (noDS_collapse _)
    have hlast2 : normPath p = ['/'] ∨ (normPath p).getLast? ≠ some '/' := by
      rw [hbase]
      exact stripTrail_last (noDS_collapse _)
    have hpne2 : normPath p ≠ [] := by
      rw [hbase]
      exact stripTrail_ne_nil (collapse_ne_nil hbne)
    have hq2 : '?' ∉ normPath p := by
      intro hc
      have hmem := hPsub _ hc
      revert hmem
      split
      next =>
        intro hmem
        simp only [List.mem_singleton] at hmem
        exact absurd hmem (by decide)
      next =>
        intro hmem
        exact usPath_no_qm u hmem
    have hh2 : '#' ∉ normPath p := by
      intro hc
      have hmem := hPsub _ hc
      revert hmem
      split
      next =>
        intro hmem
        simp only [List.mem_singleton] at hmem
        exact absurd hmem (by decide)
      next =>
        intro hmem
        exact usPath_no_hash u hmem
    have hsemi2 : ';' ∉ normPath p := by
      intro hc
      have hmem := hPsub _ hc
      revert hmem
      split
      next =>
        intro hmem
        simp only [List.mem_singleton] at hmem
        exact absurd hmem (by decide)
      next =>
        intro hmem
        exact hsp hmem
    have hph2 : normNetloc p ≠ [] → (normPath p).take 1 = ['/'] := by
      intro hn
      have hn2 : usNetloc u ≠ [] := by
        rw [hN] at hn
        intro h0
        apply hn
        rw [h0]
        rfl
      rcases usPath_slash hn2 with h0 | h1
      · rw [hbase, if_pos h0]
        decide
      · have hne0 : usPath u ≠ [] := by
          intro h0
          rw [h0] at h1
          simp at h1
        rw [hbase, if_neg hne0]
        apply stripTrail_take1
        rw [take1_iff_head, collapse_head, ← take1_iff_head]
        exact h1
    rw [hveq]
    exact normalize_stable hS hnl hnd2 hbr2 hnok2 hpok2 hnds2 hlast2 hpne2
      hph2 hq2 hh2 hsemi2

theorem stripTrail_cases (l : List Char) :
    stripTrail l = l ∨ stripTrail l ++ ['/'] = l := by
  unfold stripTrail
  split
  next hc =>
    right
    have hne : l ≠ [] := by
      intro h0
      rw [h0] at hc
      simp at hc
    have hlast := List.dropLast_append_getLast hne
    have hgl : l.getLast hne = '/' := by
      have h2 := List.getLast?_eq_getLast l hne
      rw [hc.2] at h2
      injection h2 with h3
      exact h3.symm
    rw [← hgl]
    exact hlast
  next => left; rfl

/-! ## Claim theorems: URL normalization and classification -/

/-- C1 (counterexample): `normalize_url` is NOT idempotent for every URL
string.  On `"http://example.com/?a=b%26c"` the first normalization decodes
the percent-escaped `&` into the query, which the second normalization
re-splits into two parameters; on `"http://e.com/a;p/"` stripping the
trailing slash exposes a `;params` suffix on the last path segment, which
the second parse splits off and drops. -/
theorem normalize_url_not_idempotent :
    (normalize_url ("http://example.com/?a=b%26c".toList)).bind normalize_url ≠
        normalize_url ("http://example.com/?a=b%26c".toList) ∧
      (normalize_url ("http://e.com/a;p/".toList)).bind normalize_url ≠
        normalize_url ("http://e.com/a;p/".toList) :=
  ⟨by decide, by decide⟩

/-- C1 (amended): `normalize_url` is idempotent on every URL string that
contains no `?` and no `;` character: whenever it succeeds, its output is a
fixed point of `normalize_url`. -/
theorem normalize_url_idem (u v : List Char)
    (hq : '?' ∉ u) (hsemi : ';' ∉ u)
    (h : normalize_url u = Except.ok v) :
    normalize_url v = Except.ok v :=
  normalize_url_idem_aux hq hsemi h

/-- Witness for the amended C1 theorem at `"HTTP://Example.com//a/b/"`. -/
theorem normalize_url_idem_witness :
    ('?' ∉ ("HTTP://Example.com//a/b/".toList)) ∧
      (';' ∉ ("HTTP://Example.com//a/b/".toList)) ∧
      normalize_url ("HTTP://Example.com//a/b/".toList) =
        Except.ok ("http://example.com/a/b".toList) ∧
      normalize_url ("http://example.com/a/b".toList) =
        Except.ok ("http://example.com/a/b".toList) :=
  ⟨by decide, by decide, by decide,
    normalize_url_idem ("HTTP://Example.com//a/b/".toList)
      ("http://example.com/a/b".toList) (by decide) (by decide) (by decide)⟩

/-- C8 (counterexample): `normalize_url` does not hold its "never fails"
contract on every string: it propagates the `ValueError("Invalid IPv6
URL")` that `urllib.parse.urlsplit` raises on a netloc with an unmatched
square bracket, as on `"http://[x"`. -/
theorem normalize_url_can_fail :
    normalize_url ("http://[x".toList) =
      Except.error ("Invalid IPv6 URL".toList) := by
  decide

/-- C8 (amended): on every URL accepted by `urlparse` (everything except
the unmatched-bracket `ValueError` case), `normalize_url` succeeds and
returns `urlunparse` applied to: the lowercased scheme (defaulting to
`http`), the lowercased host, the slash-collapsed trailing-slash-stripped
path, empty params, the tracking-stripped query and an empty fragment.
The produced path contains no `//` run and does not end in `/` unless it
is the root `/`; at most one trailing slash is removed from the collapsed
path; and every query pair that survives the filter has a key that is
neither in `TRACKING_PARAMS_EXACT` nor starts with `utm_`. -/
theorem normalize_url_spec (u : List Char) (p : ParseResult)
    (hp : urlparse u = Except.ok p) :
    ∃ v, normalize_url u = Except.ok v ∧
      v = urlunparse (normScheme p) (normNetloc p) (normPath p) []
        (normQuery p) [] ∧
      pyLower (normScheme p) = normScheme p ∧
      normNetloc p = pyLower p.netloc ∧
      NoDS (normPath p) ∧
      (normPath p = ['/'] ∨ (normPath p).getLast? ≠ some '/') ∧
      (normPath p = collapseSlashes (if p.path = [] then ['/'] else p.path) ∨
        normPath p ++ ['/'] =
          collapseSlashes (if p.path = [] then ['/'] else p.path)) ∧
      (∀ kv ∈ (parse_qsl p.query).filter (fun kv => ¬ isTrackingKey kv.1),
        kv.1 ∉ TRACKING_PARAMS_EXACT ∧ isUtmKey kv.1 = false) := by
  refine ⟨urlunparse (normScheme p) (normNetloc p) (normPath p) []
    (normQuery p) [], ?_, rfl, ?_, rfl, ?_, ?_, ?_, ?_⟩
  · unfold normalize_url
    rw [hp]
    rfl
  · unfold normScheme
    exact pyLower_idem _
  · have hb : normPath p = stripTrail (collapseSlashes
        (if p.path = [] then ['/'] else p.path)) := rfl
    rw [hb]
    exact noDS_stripTrail (noDS_collapse _)
  · have hb : normPath p = stripTrail (collapseSlashes
        (if p.path = [] then ['/'] else p.path)) := rfl
    rw [hb]
    exact stripTrail_last (noDS_collapse _)
  · have hb : normPath p = stripTrail (collapseSlashes
        (if p.path = [] then ['/'] else p.path)) := rfl
    rw [hb]
    exact stripTrail_cases _
  · intro kv hkv
    have h2 := (List.mem_filter.mp hkv).2
    have h3 : ¬ (isTrackingKey kv.1 = true) := of_decide_eq_true h2
    have h4 : isTrackingKey kv.1 = false := by
      cases hik : isTrackingKey kv.1 with
      | false => rfl
      | true => exact absurd hik h3
    unfold isTrackingKey at h4
    rw [Bool.or_eq_false_iff] at h4
    obtain ⟨h5, h6⟩ := h4
    refine ⟨?_, h6⟩
    intro hmem
    exact (of_decide_eq_false h5) hmem

/-- Concrete input for the C8 witness. -/
def c8u : List Char := "HTTPS://Example.COM//a//b/?utm_source=x&q=2#frag".toList

/-- `urlparse c8u` (checked by `decide` in the witness). -/
def c8p : ParseResult :=
  ⟨"https".toList, "Example.COM".toList, "//a//b/".toList, [],
    "utm_source=x&q=2".toList, "frag".toList⟩

/-- Witness for the amended C8 theorem at `c8u`. -/
theorem normalize_url_spec_witness :
    urlparse c8u = Except.ok c8p ∧
      (∃ v, normalize_url c8u = Except.ok v ∧
        v = urlunparse (normScheme c8p) (normNetloc c8p) (normPath c8p) []
          (normQuery c8p) [] ∧
        pyLower (normScheme c8p) = normScheme c8p ∧
        normNetloc c8p = pyLower c8p.netloc ∧
        NoDS (normPath c8p) ∧
        (normPath c8p = ['/'] ∨ (normPath c8p).getLast? ≠ some '/') ∧
        (normPath c8p = collapseSlashes (if c8p.path = [] then ['/'] else c8p.path) ∨
          normPath c8p ++ ['/'] =
            collapseSlashes (if c8p.path = [] then ['/'] else c8p.path)) ∧
        (∀ kv ∈ (parse_qsl c8p.query).filter (fun kv => ¬ isTrackingKey kv.1),
          kv.1 ∉ TRACKING_PARAMS_EXACT ∧ isUtmKey kv.1 = false)) :=
  ⟨by decide, normalize_url_spec c8u c8p (by decide)⟩

/-- C9: `is_internal_url url base` (whenever it does not raise) returns
`true` exactly when the two hosts, lowercased and with a leading `www.`
stripped, are equal and the URL's scheme is `http` or `https`; in
particular it accepts `https://www.example.com/x` against
`https://example.com` and rejects `https://other.com/x`. -/
theorem is_internal_url_spec :
    (∀ url base r, is_internal_url url base = Except.ok r →
      (r = true ↔
        (strip_www (pyLower (usNetloc url)) = strip_www (pyLower (usNetloc base)) ∧
          (usScheme url = "http".toList ∨ usScheme url = "https".toList)))) ∧
      is_internal_url ("https://www.example.com/x".toList)
          ("https://example.com".toList) = Except.ok true ∧
      is_internal_url ("https://other.com/x".toList)
          ("https://example.com".toList) = Except.ok false := by
  refine ⟨?_, by decide, by decide⟩
  intro url base r h
  unfold is_internal_url at h
  cases hb : urlparse base with
  | error e =>
    rw [hb] at h
    simp [Bind.bind, Except.bind] at h
  | ok pb =>
    cases hu : urlparse url with
    | error e =>
      rw [hb, hu] at h
      simp [Bind.bind, Except.bind, Functor.map, Except.map] at h
    | ok pu =>
      rw [hb, hu] at h
      simp only [Bind.bind, Except.bind, Functor.map, Except.map,
        pure, Except.pure, Except.ok.injEq] at h
      obtain ⟨_, hbe⟩ := urlparse_ok_iff.mp hb
      obtain ⟨_, hue⟩ := urlparse_ok_iff.mp hu
      subst hbe
      subst hue
      rw [← h]
      simp [Bool.and_eq_true, Bool.or_eq_true, decide_eq_true_eq]

/-- Witness for the C9 equivalence at the accepted concrete pair. -/
theorem is_internal_url_spec_witness :
    is_internal_url ("https://www.example.com/x".toList)
        ("https://example.com".toList) = Except.ok true ∧
      (true = true ↔
        (strip_www (pyLower (usNetloc ("https://www.example.com/x".toList))) =
            strip_www (pyLower (usNetloc ("https://example.com".toList))) ∧
          (usScheme ("https://www.example.com/x".toList) = "http".toList ∨
            usScheme ("https://www.example.com/x".toList) = "https".toList))) :=
  ⟨by decide, is_internal_url_spec.1 _ _ true (by decide)⟩

/-! ## `utils/retry.py`: `retry_async` -/

/-- Loop of `retry_async`, modelled over an oracle
`f : Nat → Except E (Option α)` giving the outcome of the n-th call of
`coro_func` (`Except.error` = the awaited coroutine raised; values are
`Option α` because a Python coroutine can return `None`), and a jitter
oracle `jit : Nat → ℚ` for the `random.uniform(0, 1)` drawn after attempt
n.  Arguments are the 1-based attempt counter and the number of remaining
iterations of `range(1, retries + 1)`.  Returns the outcome (`Except.ok
none` also results when the loop body never runs and the function falls
through), the number of calls made, and the list of waits slept. -/
def retryGo {E α : Type} (f : Nat → Except E (Option α)) (jit : Nat → ℚ)
    (delay backoff : ℚ) : Nat → Nat → Except E (Option α) × Nat × List ℚ
  | _, 0 => (Except.ok none, 0, [])
  | attempt, rem + 1 =>
    match f attempt with
    | Except.ok a => (Except.ok a, 1, [])
    | Except.error e =>
      if rem = 0 then (Except.error e, 1, [])
      else
        let w := delay * backoff ^ (attempt - 1) + jit attempt
        let r := retryGo f jit delay backoff (attempt + 1) rem
        (r.1, r.2.1 + 1, w :: r.2.2)

/-- `retry_async(coro_func, retries, delay, backoff)`: `for attempt in
range(1, retries + 1)` makes `max retries 0` iterations starting at
attempt 1; a success returns immediately, the `retries`-th failure
re-raises, and every earlier failure sleeps
`delay * backoff ** (attempt - 1) + random.uniform(0, 1)`. -/
def retry_async {E α : Type} (f : Nat → Except E (Option α)) (jit : Nat → ℚ)
    (retries : Int) (delay backoff : ℚ) :
    Except E (Option α) × Nat × List ℚ :=
  retryGo f jit delay backoff 1 retries.toNat

theorem retryGo_calls {E α : Type} (f : Nat → Except E (Option α))
    (jit : Nat → ℚ) (delay backoff : ℚ) :
    ∀ rem attempt, (retryGo f jit delay backoff attempt rem).2.1 ≤ rem := by
  intro rem
  induction rem with
  | zero => intro attempt; simp [retryGo]
  | succ n ih =>
    intro attempt
    unfold retryGo
    cases f attempt with
    | ok a => simp
    | error e =>
      by_cases hn : n = 0
      · simp [hn]
      · simp only [if_neg hn]
        have := ih (attempt + 1)
        simpa using Nat.succ_le_succ this

theorem retryGo_allFail {E α : Type} (f : Nat → Except E (Option α))
    (jit : Nat → ℚ) (d b : ℚ) (e : Nat → E)
    (hf : ∀ n, f n = Except.error (e n)) :
    ∀ rem attempt, 1 ≤ attempt →
      retryGo f jit d b attempt (rem + 1) =
        (Except.error (e (attempt + rem)), rem + 1,
          (List.range rem).map
            (fun n => d * b ^ (attempt - 1 + n) + jit (attempt + n))) := by
  intro rem
  induction rem with
  | zero =>
    intro attempt hat
    simp [retryGo, hf]
  | succ m ih =>
    intro attempt hat
    unfold retryGo
    rw [hf attempt]
    dsimp only
    rw [if_neg (show ¬ (m + 1 = 0) by omega)]
    rw [ih (attempt + 1) (by omega)]
    have he : attempt + 1 + m = attempt + (m + 1) := by omega
    have hl : (d * b ^ (attempt - 1) + jit attempt) ::
        (List.range m).map
          (fun n => d * b ^ (attempt + 1 - 1 + n) + jit (attempt + 1 + n)) =
        (List.range (m + 1)).map
          (fun n => d * b ^ (attempt - 1 + n) + jit (attempt + n)) := by
      rw [List.range_succ_eq_map]
      rw [List.map_cons, List.map_map]
      congr 1
      apply List.map_congr_left
      intro n hn
      show d * b ^ (attempt + 1 - 1 + n) + jit (attempt + 1 + n) =
        d * b ^ (attempt - 1 + (n + 1)) + jit (attempt + (n + 1))
      have h1 : attempt + 1 - 1 + n = attempt - 1 + (n + 1) := by omega
      have h2 : attempt + 1 + n = attempt + (n + 1) := by omega
      rw [h1, h2]
    rw [he, hl]

/-- C5: `retry_async` calls the wrapped operation at most `retries` times
(for any operation); for an always-failing operation and `retries ≥ 1` it
makes exactly `retries` calls, re-raises the last failure, and after the
n-th failed attempt (n < retries) waits `delay * backoff ^ (n - 1)` plus
the jitter drawn from `[0, 1)`; with `retries = 3, delay = 2, backoff = 2`
it makes exactly 3 calls and sleeps `2 + jitter` then `4 + jitter`, a
total scheduled wait of `6` seconds plus a jitter in `[0, 2)`. -/
theorem retry_async_spec {E α : Type} (f : Nat → Except E (Option α))
    (jit : Nat → ℚ) (e : Nat → E)
    (hj : ∀ n, 0 ≤ jit n ∧ jit n < 1)
    (hf : ∀ n, f n = Except.error (e n)) :
    (∀ (g : Nat → Except E (Option α)) (retries : Int) (d b : ℚ),
      (retry_async g jit retries d b).2.1 ≤ retries.toNat) ∧
      (∀ (retries : Int) (d b : ℚ), 1 ≤ retries →
        retry_async f jit retries d b =
          (Except.error (e retries.toNat), retries.toNat,
            (List.range (retries.toNat - 1)).map
              (fun n => d * b ^ n + jit (n + 1)))) ∧
      (retry_async f jit 3 2 2).2.1 = 3 ∧
      (retry_async f jit 3 2 2).1 = Except.error (e 3) ∧
      (retry_async f jit 3 2 2).2.2 = [2 + jit 1, 4 + jit 2] ∧
      (retry_async f jit 3 2 2).2.2.sum = 6 + (jit 1 + jit 2) ∧
      0 ≤ jit 1 + jit 2 ∧ jit 1 + jit 2 < 2 := by
  have hcalc : retry_async f jit 3 2 2 =
      (Except.error (e 3), 3, [2 + jit 1, 4 + jit 2]) := by
    unfold retry_async
    show retryGo f jit 2 2 1 3 = _
    simp only [retryGo, hf]
    norm_num
  refine ⟨?_, ?_, ?_, ?_, ?_, ?_, ?_, ?_⟩
  · intro g retries d b
    exact retryGo_calls g jit d b retries.toNat 1
  · intro retries d b hret
    have hN : retries.toNat = (retries.toNat - 1) + 1 := by omega
    unfold retry_async
    rw [hN, retryGo_allFail f jit d b e hf (retries.toNat - 1) 1 (by omega)]
    have he : 1 + (retries.toNat - 1) = (retries.toNat - 1) + 1 := by omega
    have hm : (List.range (retries.toNat - 1)).map
        (fun n => d * b ^ (1 - 1 + n) + jit (1 + n)) =
        (List.range (retries.toNat - 1)).map
          (fun n => d * b ^ n + jit (n + 1)) := by
      apply List.map_congr_left
      intro n hn
      have h1 : 1 - 1 + n = n := by omega
      have h2 : 1 + n = n + 1 := by omega
      rw [h1, h2]
    have h3 : retries.toNat - 1 + 1 - 1 = retries.toNat - 1 := by omega
    rw [he, hm, h3]
  · rw [hcalc]
  · rw [hcalc]
  · rw [hcalc]
  · rw [hcalc]
    simp [List.sum_cons]
    ring
  · have h1 := (hj 1).1
    have h2 := (hj 2).1
    linarith
  · have h1 := (hj 1).2
    have h2 := (hj 2).2
    linarith

/-- Always-failing operation for the C5 witness. -/
def c5f : Nat → Except Nat (Option Unit) := fun n => Except.error n

/-- Constant jitter for the C5 witness. -/
def c5jit : Nat → ℚ := fun _ => 1 / 2

/-- Witness for C5 at a concrete always-failing operation with jitter 1/2. -/
theorem retry_async_spec_witness :
    (∀ n, 0 ≤ c5jit n ∧ c5jit n < 1) ∧ (∀ n, c5f n = Except.error n) ∧
      ((∀ (g : Nat → Except Nat (Option Unit)) (retries : Int) (d b : ℚ),
        (retry_async g c5jit retries d b).2.1 ≤ retries.toNat) ∧
        (∀ (retries : Int) (d b : ℚ), 1 ≤ retries →
          retry_async c5f c5jit retries d b =
            (Except.error retries.toNat, retries.toNat,
              (List.range (retries.toNat - 1)).map
                (fun n => d * b ^ n + c5jit (n + 1)))) ∧
        (retry_async c5f c5jit 3 2 2).2.1 = 3 ∧
        (retry_async c5f c5jit 3 2 2).1 = Except.error 3 ∧
        (retry_async c5f c5jit 3 2 2).2.2 = [2 + c5jit 1, 4 + c5jit 2] ∧
        (retry_async c5f c5jit 3 2 2).2.2.sum = 6 + (c5jit 1 + c5jit 2) ∧
        0 ≤ c5jit 1 + c5jit 2 ∧ c5jit 1 + c5jit 2 < 2) :=
  ⟨fun _ => ⟨by norm_num [c5jit], by norm_num [c5jit]⟩, fun _ => rfl,
    retry_async_spec c5f c5jit (fun n => n)
      (fun _ => ⟨by norm_num [c5jit], by norm_num [c5jit]⟩) (fun _ => rfl)⟩

/-- C10: with `retries ≤ 0` the loop `range(1, retries + 1)` is empty, so
`retry_async` returns Python `None` without calling the operation, without
raising and without sleeping; its outcome equals that of an operation that
succeeds returning `None` on its single attempt, so the caller cannot tell
the two apart from the result. -/
theorem retry_async_nonpos {E α : Type} (f : Nat → Except E (Option α))
    (jit : Nat → ℚ) (retries : Int) (d b : ℚ) (h : retries ≤ 0) :
    retry_async f jit retries d b = (Except.ok none, 0, []) ∧
      (@retry_async E α (fun _ => Except.ok none) jit 1 d b).1 =
        (retry_async f jit retries d b).1 ∧
      (@retry_async E α (fun _ => Except.ok none) jit 1 d b).2.1 = 1 := by
  have hz : retries.toNat = 0 := Int.toNat_of_nonpos h
  refine ⟨?_, ?_, rfl⟩
  · unfold retry_async
    rw [hz]
    rfl
  · unfold retry_async
    rw [hz]
    rfl

/-- Witness for C10 at `retries = -2`. -/
theorem retry_async_nonpos_witness :
    ((-2 : Int) ≤ 0) ∧
      (retry_async c5f c5jit (-2) 2 2 = (Except.ok none, 0, []) ∧
        (@retry_async Nat Unit (fun _ => Except.ok none) c5jit 1 2 2).1 =
          (retry_async c5f c5jit (-2) 2 2).1 ∧
        (@retry_async Nat Unit (fun _ => Except.ok none) c5jit 1 2 2).2.1 = 1) :=
  ⟨by decide, retry_async_nonpos c5f c5jit (-2) 2 2 (by decide)⟩

/-! ## Queue dedup machine (`queue_manager.py`)

`URLQueue.add_url_async` and `DiscoveryQueue.add_url_async` both run

    norm = normalize_url(url)
    async with self.lock:
        if norm not in self.visited:
            await self.queue.put(<norm or (norm, depth)>)
            self.visited.add(norm)

We model a set of concurrent callers, each with a list of pending
`add_url_async` calls, interleaved at every suspension point.  The payload
type `D` is the extra data enqueued with the key (`Unit` for `URLQueue`,
the depth for `DiscoveryQueue`). -/

/-- Control point of one task inside its current `add_url_async` call. -/
inductive TPh where
  | ready : TPh
  | normed : List Char → TPh
  | locked : List Char → TPh
  | checked : List Char → Bool → TPh
deriving DecidableEq, Repr

/-- State of one queue plus its callers: the visited set, the sequence of
values ever `put` on the underlying `asyncio.Queue`, the lock holder, and
each task's control point and remaining calls. -/
structure QMState (D : Type) where
  visited : List (List Char)
  pending : List (List Char × D)
  lock : Option Nat
  tasks : List (TPh × List (List Char × D))
deriving Repr, DecidableEq

/-- One scheduler step of task `i`, if enabled: compute `normalize_url`
(before the lock; an exception kills the task), acquire the lock, test the
visited set under the lock, then put + insert (only when the key was
absent) and release. -/
def qmTaskStep {D : Type} (s : QMState D) (i : Nat) : Option (QMState D) :=
  match s.tasks[i]? with
  | none => none
  | some (ph, todo) =>
    match ph, todo with
    | TPh.ready, (u, _) :: _ =>
      match normalize_url u with
      | Except.ok key =>
        some { s with tasks := s.tasks.set i (TPh.normed key, todo) }
      | Except.error _ =>
        some { s with tasks := s.tasks.set i (TPh.ready, []) }
    | TPh.normed key, _ :: _ =>
      match s.lock with
      | none =>
        some { s with
          lock := some i
          tasks := s.tasks.set i (TPh.locked key, todo) }
      | some _ => none
    | TPh.locked key, _ :: _ =>
      if s.lock = some i then
        some { s with
          tasks := s.tasks.set i (TPh.checked key (decide (¬ key ∈ s.visited)), todo) }
      else none
    | TPh.checked key fresh, (_, d) :: rest =>
      if s.lock = some i then
        if fresh then
          some { s with
            visited := key :: s.visited
            pending := s.pending ++ [(key, d)]
            lock := none
            tasks := s.tasks.set i (TPh.ready, rest) }
        else
          some { s with lock := none, tasks := s.tasks.set i (TPh.ready, rest) }
      else none
    | _, [] => none

/-- Interleaving step: some task moves. -/
def qmStep {D : Type} (s t : QMState D) : Prop :=
  ∃ i, qmTaskStep s i = some t

/-- Reachability by interleaved scheduling. -/
inductive QMReach {D : Type} : QMState D → QMState D → Prop where
  | refl (s : QMState D) : QMReach s s
  | step {s t u : QMState D} : QMReach s t → qmStep t u → QMReach s u

/-- Initial state: empty visited set and queue, lock free, every caller at
the start of its call list. -/
def qmInit {D : Type} (tasks : List (List (List Char × D))) : QMState D :=
  ⟨[], [], none, tasks.map (fun todo => (TPh.ready, todo))⟩

/-- Machine invariant: pending keys are distinct, every pending key is in
the visited set, and lock discipline — a task at or past the lock
acquisition holds the lock, and a memoized "key was absent" verdict is
still true while the lock is held. -/
def QMInv {D : Type} (s : QMState D) : Prop :=
  (s.pending.map Prod.fst).Nodup ∧
  (∀ kv ∈ s.pending, kv.1 ∈ s.visited) ∧
  (∀ i ph todo, s.tasks[i]? = some (ph, todo) →
    (∀ k, ph = TPh.locked k → s.lock = some i) ∧
    (∀ k fresh, ph = TPh.checked k fresh →
      s.lock = some i ∧ (fresh = true → ¬ k ∈ s.visited)))

theorem qmInit_inv {D : Type} (tasks : List (List (List Char × D))) :
    QMInv (qmInit tasks) := by
  refine ⟨List.nodup_nil, ?_, ?_⟩
  · intro kv hkv
    simp [qmInit] at hkv
  · intro i ph todo hget
    simp only [qmInit, List.getElem?_map] at hget
    cases htask : tasks[i]? with
    | none =>
      rw [htask] at hget
      cases hget
    | some todo0 =>
      rw [htask] at hget
      injection hget with h2
      injection h2 with hph htd
      constructor
      · intro k hk
        rw [← hph] at hk
        cases hk
      · intro k fresh hk
        rw [← hph] at hk
        cases hk

theorem qmInv_step {D : Type} {s t : QMState D}
    (hinv : QMInv s) (hstep : qmStep s t) : QMInv t := by
  obtain ⟨i, hi⟩ := hstep
  obtain ⟨hnd, hpv, htask⟩ := hinv
  unfold qmTaskStep at hi
  cases hg : s.tasks[i]? with
  | none =>
    rw [hg] at hi
    simp at hi
  | some pht =>
    rw [hg] at hi
    obtain ⟨ph, todo⟩ := pht
    have hlen : i < s.tasks.length := by
      rw [List.getElem?_eq_some] at hg
      exact hg.1
    cases ph with
    | ready =>
      cases todo with
      | nil =>
        simp at hi
      | cons hd rest =>
        obtain ⟨u, d0⟩ := hd
        dsimp only at hi
        cases hn : normalize_url u with
        | ok key =>
          rw [hn] at hi
          injection hi with hi2
          subst hi2
          refine ⟨hnd, hpv, ?_⟩
          intro j ph2 todo2 hget
          by_cases hij : i = j
          · subst hij
            rw [List.getElem?_set_self hlen] at hget
            injection hget with h2
            injection h2 with hph htd
            constructor
            · intro k hk
              rw [← hph] at hk
              cases hk
            · intro k fresh hk
              rw [← hph] at hk
              cases hk
          · rw [List.getElem?_set_ne hij] at hget
            exact htask j ph2 todo2 hget
        | error err =>
          rw [hn] at hi
          injection hi with hi2
          subst hi2
          refine ⟨hnd, hpv, ?_⟩
          intro j ph2 todo2 hget
          by_cases hij : i = j
          · subst hij
            rw [List.getElem?_set_self hlen] at hget
            injection hget with h2
            injection h2 with hph htd
            constructor
            · intro k hk
              rw [← hph] at hk
              cases hk
            · intro k fresh hk
              rw [← hph] at hk
              cases hk
          · rw [List.getElem?_set_ne hij] at hget
            exact htask j ph2 todo2 hget
    | normed key =>
      cases todo with
      | nil =>
        simp at hi
      | cons hd rest =>
        dsimp only at hi
        cases hl : s.lock with
        | some j0 =>
          rw [hl] at hi
          simp at hi
        | none =>
          rw [hl] at hi
          dsimp only at hi
          injection hi with hi2
          subst hi2
          refine ⟨hnd, hpv, ?_⟩
          intro j ph2 todo2 hget
          by_cases hij : i = j
          · subst hij
            rw [List.getElem?_set_self hlen] at hget
            injection hget with h2
            injection h2 with hph htd
            constructor
            · intro k hk
              exact rfl
            · intro k fresh hk
              rw [← hph] at hk
              cases hk
          · rw [List.getElem?_set_ne hij] at hget
            have hj := htask j ph2 todo2 hget
            constructor
            · intro k hk
              have h2 := hj.1 k hk
              rw [hl] at h2
              cases h2
            · intro k fresh hk
              have h2 := (hj.2 k fresh hk).1
              rw [hl] at h2
              cases h2
    | locked key =>
      cases todo with
      | nil =>
        simp at hi
      | cons hd rest =>
        dsimp only at hi
        by_cases hli : s.lock = some i
        · rw [if_pos hli] at hi
          injection hi with hi2
          subst hi2
          refine ⟨hnd, hpv, ?_⟩
          intro j ph2 todo2 hget
          by_cases hij : i = j
          · subst hij
            rw [List.getElem?_set_self hlen] at hget
            injection hget with h2
            injection h2 with hph htd
            constructor
            · intro k hk
              rw [← hph] at hk
              cases hk
            · intro k fresh hk
              rw [← hph] at hk
              injection hk with hk1 hk2
              refine ⟨hli, ?_⟩
              intro hfresh
              rw [← hk2] at hfresh
              have h3 := of_decide_eq_true hfresh
              rw [← hk1]
              exact h3
          · rw [List.getElem?_set_ne hij] at hget
            have hj := htask j ph2 todo2 hget
            constructor
            · intro k hk
              have h2 := hj.1 k hk
              rw [hli] at h2
              injection h2 with h3
              exact absurd h3 hij
            · intro k fresh hk
              have h2 := (hj.2 k fresh hk).1
              rw [hli] at h2
              injection h2 with h3
              exact absurd h3 hij
        · rw [if_neg hli] at hi
          cases hi
    | checked key fresh =>
      cases todo with
      | nil =>
        simp at hi
      | cons hd rest =>
        obtain ⟨u0, d0⟩ := hd
        dsimp only at hi
        by_cases hli : s.lock = some i
        · rw [if_pos hli] at hi
          cases hfresh : fresh with
          | true =>
            rw [hfresh] at hi
            rw [if_pos rfl] at hi
            injection hi with hi2
            subst hi2
            have hkey : ¬ key ∈ s.visited := by
              have hj := (htask i _ _ hg).2 key fresh rfl
              exact hj.2 hfresh
            refine ⟨?_, ?_, ?_⟩
            · rw [List.map_append]
              have hmap : (List.map Prod.fst [(key, d0)]) = [key] := rfl
              rw [hmap, ← List.concat_eq_append]
              apply List.Nodup.concat
              · intro hmem
                rw [List.mem_map] at hmem
                obtain ⟨kv, hkv, hfst⟩ := hmem
                exact hkey (hfst ▸ hpv kv hkv)
              · exact hnd
            · intro kv hkv
              rw [List.mem_append] at hkv
              rcases hkv with h2 | h2
              · exact List.mem_cons_of_mem _ (hpv kv h2)
              · rw [List.mem_singleton] at h2
                subst h2
                exact List.mem_cons_self _ _
            · intro j ph2 todo2 hget
              by_cases hij : i = j
              · subst hij
                rw [List.getElem?_set_self hlen] at hget
                injection hget with h2
                injection h2 with hph htd
                constructor
                · intro k hk
                  rw [← hph] at hk
                  cases hk
                · intro k fr hk
                  rw [← hph] at hk
                  cases hk
              · rw [List.getElem?_set_ne hij] at hget
                have hj := htask j ph2 todo2 hget
                constructor
                · intro k hk
                  have h2 := hj.1 k hk
                  rw [hli] at h2
                  injection h2 with h3
                  exact absurd h3 hij
                · intro k fr hk
                  have h2 := (hj.2 k fr hk).1
                  rw [hli] at h2
                  injection h2 with h3
                  exact absurd h3 hij
          | false =>
            rw [hfresh] at hi
            rw [if_neg (by simp)] at hi
            injection hi with hi2
            subst hi2
            refine ⟨hnd, hpv, ?_⟩
            intro j ph2 todo2 hget
            by_cases hij : i = j
            · subst hij
              rw [List.getElem?_set_self hlen] at hget
              injection hget with h2
              injection h2 with hph htd
              constructor
              · intro k hk
                rw [← hph] at hk
                cases hk
              · intro k fr hk
                rw [← hph] at hk
                cases hk
            · rw [List.getElem?_set_ne hij] at hget
              have hj := htask j ph2 todo2 hget
              constructor
              · intro k hk
                have h2 := hj.1 k hk
                rw [hli] at h2
                injection h2 with h3
                exact absurd h3 hij
              · intro k fr hk
                have h2 := (hj.2 k fr hk).1
                rw [hli] at h2
                injection h2 with h3
                exact absurd h3 hij
        · rw [if_neg hli] at hi
          cases hi

theorem qmReach_inv {D : Type} {s t : QMState D}
    (h : QMReach s t) (hs : QMInv s) : QMInv t := by
  induction h with
  | refl => exact hs
  | step hr hstep ih => exact qmInv_step ih hstep

theorem qmReach_head {D : Type} {s t u : QMState D}
    (h1 : qmStep s t) (h2 : QMReach t u) : QMReach s u := by
  induction h2 with
  | refl => exact QMReach.step (QMReach.refl s) h1
  | step hr hstep ih => exact QMReach.step ih hstep

/-- Scheduler run along a list of task indices (for concrete witnesses). -/
def qmRun {D : Type} (s : QMState D) : List Nat → Option (QMState D)
  | [] => some s
  | i :: is =>
    match qmTaskStep s i with
    | some t => qmRun t is
    | none => none

theorem qmRun_reach {D : Type} :
    ∀ (is : List Nat) (s t : QMState D), qmRun s is = some t → QMReach s t := by
  intro is
  induction is with
  | nil =>
    intro s t h
    injection h with h2
    rw [h2]
    exact QMReach.refl t
  | cons i is ih =>
    intro s t h
    unfold qmRun at h
    cases hstep : qmTaskStep s i with
    | none =>
      rw [hstep] at h
      simp at h
    | some s2 =>
      rw [hstep] at h
      dsimp only at h
      exact qmReach_head ⟨i, hstep⟩ (ih s2 t h)

/-- C2: for any set of concurrent `add_url_async` callers interleaved at
every suspension point, every reachable state of a queue (`URLQueue` with
`D = Unit`, `DiscoveryQueue` with `D = Nat`) has each distinct normalized
URL put into the underlying pending queue at most once — the keys of the
`put` values are pairwise distinct — and every enqueued key recorded in
the visited set.  The lock makes the visited-set check and the insertion
atomic: no two callers can both observe "not present" for the same
normalized URL and both enqueue it. -/
theorem queue_dedup {D : Type} (tasks : List (List (List Char × D)))
    (s : QMState D) (h : QMReach (qmInit tasks) s) :
    (s.pending.map Prod.fst).Nodup ∧ ∀ kv ∈ s.pending, kv.1 ∈ s.visited :=
  have hinv := qmReach_inv h (qmInit_inv tasks)
  ⟨hinv.1, hinv.2.1⟩

/-- Two callers racing to add the same URL, for the C2 witness. -/
def c2tasks : List (List (List Char × Nat)) :=
  [[("https://A.com/x".toList, 0)], [("https://A.com/x".toList, 0)]]

/-- Final state of the interleaving where caller 0 wins the race. -/
def c2final : QMState Nat :=
  ⟨["https://a.com/x".toList], [("https://a.com/x".toList, 0)], none,
    [(TPh.ready, []), (TPh.ready, [])]⟩

/-- Witness for C2: a full interleaved run of two callers adding the same
URL; the second caller's add is deduplicated, so the URL is enqueued
exactly once. -/
theorem queue_dedup_witness :
    QMReach (qmInit c2tasks) c2final ∧
      ((c2final.pending.map Prod.fst).Nodup ∧
        ∀ kv ∈ c2final.pending, kv.1 ∈ c2final.visited) :=
  have hr : QMReach (qmInit c2tasks) c2final :=
    qmRun_reach [0, 0, 0, 0, 1, 1, 1, 1] _ _ (by decide)
  ⟨hr, queue_dedup c2tasks c2final hr⟩

/-! ## Crawler traversal machine (`crawler.py`, seeded by `scraper_runner.py`)

The crawler is the single traversal actor.  Its loop is deterministic
given two oracles: `nav u` — whether `page.goto(u)` succeeds — and
`links u` — the hrefs that `page.eval_on_selector_all("a[href]", ...)`
returns for the page at `u`.  Execution is fuel-bounded (the Python loop
need not terminate on adversarial link graphs). -/

/-- `MAX_DEPTH` from `config.py`. -/
def MAX_DEPTH : Nat := 3

/-- Crawler-visible state: the discovery queue and its visited set, and
the scrape queue and its visited set. -/
structure CrawlSt where
  dq : List (List Char × Nat)
  dvis : List (List Char)
  sq : List (List Char)
  svis : List (List Char)
deriving Repr, DecidableEq

/-- Events of the traversal loop: popping a discovery item, an actual put
onto the scrape queue, an actual put onto the discovery queue, and the
`task_done()` in the `finally` block. -/
inductive CEv where
  | pop : List Char → Nat → CEv
  | scrapeEnq : List Char → CEv
  | discEnq : List Char → Nat → CEv
  | taskDone : CEv
deriving DecidableEq, Repr

/-- `discovery_queue.add_url_async(u, d)` as called by the crawler:
normalize (a raise is `none`), then dedup-insert. -/
def dqAdd (st : CrawlSt) (u : List Char) (d : Nat) :
    Option (CrawlSt × List CEv) :=
  match normalize_url u with
  | Except.error _ => none
  | Except.ok n =>
    if n ∈ st.dvis then some (st, [])
    else some ({ st with dq := st.dq ++ [(n, d)], dvis := n :: st.dvis },
      [CEv.discEnq n d])

/-- `scrape_queue.add_url_async(n)` for an already-normalized `n`. -/
def scrapeAdd (st : CrawlSt) (n : List Char) : CrawlSt × List CEv :=
  if n ∈ st.svis then (st, [])
  else ({ st with sq := st.sq ++ [n], svis := n :: st.svis },
    [CEv.scrapeEnq n])

/-- The `for link in links` loop: normalize each href, keep it when it is
internal and probably HTML, and add it at `depth + 1`.  An exception from
any of these calls aborts the rest of the loop (it is caught by the
crawler's `except`), keeping the effects made so far. -/
def processLinks (base : List Char) :
    CrawlSt → List (List Char) → Nat → CrawlSt × List CEv
  | st, [], _ => (st, [])
  | st, link :: rest, d =>
    match normalize_url link with
    | Except.error _ => (st, [])
    | Except.ok l =>
      match is_internal_url l base with
      | Except.error _ => (st, [])
      | Except.ok false => processLinks base st rest d
      | Except.ok true =>
        match is_probably_html_url l with
        | Except.error _ => (st, [])
        | Except.ok false => processLinks base st rest d
        | Except.ok true =>
          match dqAdd st l (d + 1) with
          | none => (st, [])
          | some (st2, evs) =>
            let r := processLinks base st2 rest d
            (r.1, evs ++ r.2)

/-- One iteration body of `start_crawling` for the popped `(u, d)`:
navigate, enqueue for scraping, and (only when `d < MAX_DEPTH`) process
the extracted links; a navigation failure has no effect at all. -/
def crawlIter (nav : List Char → Bool) (links : List Char → List (List Char))
    (base : List Char) (st : CrawlSt) (u : List Char) (d : Nat) :
    CrawlSt × List CEv :=
  if nav u then
    match normalize_url u with
    | Except.error _ => (st, [])
    | Except.ok n =>
      let se := scrapeAdd st n
      if d < MAX_DEPTH then
        let r := processLinks base se.1 (links u) d
        (r.1, se.2 ++ r.2)
      else se
  else (st, [])

/-- The traversal loop `while self.discovery_queue.has_pending()`:
returns the event trace, the final state, and whether the loop exited
via its `has_pending` condition (rather than running out of fuel). -/
def crawlRun (nav : List Char → Bool) (links : List Char → List (List Char))
    (base : List Char) : Nat → CrawlSt → List CEv × CrawlSt × Bool
  | 0, st => ([], st, false)
  | fuel + 1, st =>
    match st.dq with
    | [] => ([], st, true)
    | (u, d) :: rest =>
      let st0 : CrawlSt := { st with dq := rest }
      let r := crawlIter nav links base st0 u d
      let r2 := crawlRun nav links base fuel r.1
      (CEv.pop u d :: (r.2 ++ CEv.taskDone :: r2.1), r2.2)

/-- Seeding in `scraper_runner.main`: `discovery_queue.add_url(seed, depth=0)`
on a fresh queue (`none` if `normalize_url` raises on the seed). -/
def crawlInit (seed : List Char) : Option CrawlSt :=
  match normalize_url seed with
  | Except.error _ => none
  | Except.ok n => some ⟨[(n, 0)], [n], [], []⟩

theorem dqAdd_facts {st : CrawlSt} {u : List Char} {d : Nat} {st2 : CrawlSt}
    {evs : List CEv} (h : dqAdd st u d = some (st2, evs)) :
    (∀ e ∈ evs, ∃ v, e = CEv.discEnq v d) ∧
      (∀ x ∈ st2.dq, x ∈ st.dq ∨ x.2 = d) := by
  unfold dqAdd at h
  cases hn : normalize_url u with
  | error e =>
    rw [hn] at h
    cases h
  | ok n =>
    rw [hn] at h
    dsimp only at h
    split at h
    · injection h with h1
      injection h1 with h2 h3
      subst h2
      subst h3
      refine ⟨?_, ?_⟩
      · intro e he
        simp at he
      · intro x hx
        exact Or.inl hx
    · injection h with h1
      injection h1 with h2 h3
      subst h2
      subst h3
      refine ⟨?_, ?_⟩
      · intro e he
        rw [List.mem_singleton] at he
        exact ⟨n, he⟩
      · intro x hx
        rw [List.mem_append] at hx
        rcases hx with hx | hx
        · exact Or.inl hx
        · rw [List.mem_singleton] at hx
          subst hx
          exact Or.inr rfl

theorem processLinks_facts (base : List Char) :
    ∀ (ls : List (List Char)) (st : CrawlSt) (d : Nat),
      (∀ e ∈ (processLinks base st ls d).2, ∃ v, e = CEv.discEnq v (d + 1)) ∧
        (∀ x ∈ (processLinks base st ls d).1.dq, x ∈ st.dq ∨ x.2 = d + 1) := by
  intro ls
  induction ls with
  | nil =>
    intro st d
    refine ⟨?_, ?_⟩
    · intro e he
      simp [processLinks] at he
    · intro x hx
      simp only [processLinks] at hx
      exact Or.inl hx
  | cons link rest ih =>
    intro st d
    cases hn : normalize_url link with
    | error err =>
      refine ⟨?_, ?_⟩
      · intro e he
        simp only [processLinks, hn] at he
        simp at he
      · intro x hx
        simp only [processLinks, hn] at hx
        exact Or.inl hx
    | ok l =>
      cases hi : is_internal_url l base with
      | error err =>
        refine ⟨?_, ?_⟩
        · intro e he
          simp only [processLinks, hn, hi] at he
          simp at he
        · intro x hx
          simp only [processLinks, hn, hi] at hx
          exact Or.inl hx
      | ok bi =>
        cases bi with
        | false =>
          have hr := ih st d
          refine ⟨?_, ?_⟩
          · intro e he
            simp only [processLinks, hn, hi] at he
            exact hr.1 e he
          · intro x hx
            simp only [processLinks, hn, hi] at hx
            exact hr.2 x hx
        | true =>
          cases hh : is_probably_html_url l with
          | error err =>
            refine ⟨?_, ?_⟩
            · intro e he
              simp only [processLinks, hn, hi, hh] at he
              simp at he
            · intro x hx
              simp only [processLinks, hn, hi, hh] at hx
              exact Or.inl hx
          | ok bh =>
            cases bh with
            | false =>
              have hr := ih st d
              refine ⟨?_, ?_⟩
              · intro e he
                simp only [processLinks, hn, hi, hh] at he
                exact hr.1 e he
              · intro x hx
                simp only [processLinks, hn, hi, hh] at hx
                exact hr.2 x hx
            | true =>
              cases ha : dqAdd st l (d + 1) with
              | none =>
                refine ⟨?_, ?_⟩
                · intro e he
                  simp only [processLinks, hn, hi, hh, ha] at he
                  simp at he
                · intro x hx
                  simp only [processLinks, hn, hi, hh, ha] at hx
                  exact Or.inl hx
              | some p =>
                obtain ⟨st2, evs⟩ := p
                have hd := dqAdd_facts ha
                have hr := ih st2 d
                refine ⟨?_, ?_⟩
                · intro e he
                  simp only [processLinks, hn, hi, hh, ha] at he
                  rw [List.mem_append] at he
                  rcases he with he | he
                  · exact hd.1 e he
                  · exact hr.1 e he
                · intro x hx
                  simp only [processLinks, hn, hi, hh, ha] at hx
                  rcases hr.2 x hx with h2 | h2
                  · exact hd.2 x h2
                  · exact Or.inr h2

theorem scrapeAdd_facts (st : CrawlSt) (n : List Char) :
    (scrapeAdd st n).1.dq = st.dq ∧
      ∀ e ∈ (scrapeAdd st n).2, ∃ v, e = CEv.scrapeEnq v := by
  unfold scrapeAdd
  split
  · refine ⟨rfl, ?_⟩
    intro e he
    simp at he
  · refine ⟨rfl, ?_⟩
    intro e he
    rw [List.mem_singleton] at he
    exact ⟨n, he⟩

theorem crawlIter_facts (nav : List Char → Bool)
    (links : List Char → List (List Char)) (base : List Char)
    (st : CrawlSt) (u : List Char) (d : Nat) :
    (∀ e ∈ (crawlIter nav links base st u d).2,
      (∃ v, e = CEv.scrapeEnq v) ∨
        (d < MAX_DEPTH ∧ ∃ v, e = CEv.discEnq v (d + 1))) ∧
      (∀ x ∈ (crawlIter nav links base st u d).1.dq,
        x ∈ st.dq ∨ (d < MAX_DEPTH ∧ x.2 = d + 1)) := by
  unfold crawlIter
  by_cases hnav : nav u = true
  · rw [if_pos hnav]
    cases hn : normalize_url u with
    | error err =>
      refine ⟨?_, ?_⟩
      · intro e he
        simp at he
      · intro x hx
        exact Or.inl hx
    | ok n =>
      have hse := scrapeAdd_facts st n
      dsimp only
      by_cases hd : d < MAX_DEPTH
      · rw [if_pos hd]
        have hp := processLinks_facts base (links u) (scrapeAdd st n).1 d
        refine ⟨?_, ?_⟩
        · intro e he
          dsimp only at he
          rw [List.mem_append] at he
          rcases he with he | he
          · exact Or.inl (hse.2 e he)
          · obtain ⟨v, hv⟩ := hp.1 e he
            exact Or.inr ⟨hd, v, hv⟩
        · intro x hx
          dsimp only at hx
          rcases hp.2 x hx with h2 | h2
          · rw [hse.1] at h2
            exact Or.inl h2
          · exact Or.inr ⟨hd, h2⟩
      · rw [if_neg hd]
        refine ⟨?_, ?_⟩
        · intro e he
          exact Or.inl (hse.2 e he)
        · intro x hx
          rw [hse.1] at hx
          exact Or.inl hx
  · rw [if_neg hnav]
    refine ⟨?_, ?_⟩
    · intro e he
      simp at he
    · intro x hx
      exact Or.inl hx

/-- All queued discovery items respect the depth bound. -/
def DqBound (st : CrawlSt) : Prop := ∀ x ∈ st.dq, x.2 ≤ MAX_DEPTH

theorem crawlRun_depth (nav : List Char → Bool)
    (links : List Char → List (List Char)) (base : List Char) :
    ∀ fuel st, DqBound st →
      (∀ u d, CEv.pop u d ∈ (crawlRun nav links base fuel st).1 →
        d ≤ MAX_DEPTH) ∧
      (∀ u d, CEv.discEnq u d ∈ (crawlRun nav links base fuel st).1 →
        d ≤ MAX_DEPTH) := by
  intro fuel
  induction fuel with
  | zero =>
    intro st hb
    refine ⟨?_, ?_⟩ <;> intro u d h <;> simp [crawlRun] at h
  | succ n ih =>
    intro st hb
    cases hq : st.dq with
    | nil =>
      refine ⟨?_, ?_⟩ <;> intro u d h <;> simp [crawlRun, hq] at h
    | cons hd0 rest =>
      obtain ⟨u0, d0⟩ := hd0
      have hd0le : d0 ≤ MAX_DEPTH :=
        hb (u0, d0) (by rw [hq]; exact List.mem_cons_self _ _)
      have hbrest : DqBound { st with dq := rest } := by
        intro x hx
        exact hb x (by rw [hq]; exact List.mem_cons_of_mem _ hx)
      have hit := crawlIter_facts nav links base { st with dq := rest } u0 d0
      have hbnext :
          DqBound (crawlIter nav links base { st with dq := rest } u0 d0).1 := by
        intro x hx
        rcases hit.2 x hx with h2 | h2
        · exact hbrest x h2
        · rw [h2.2]
          omega
      have ihn := ih _ hbnext
      refine ⟨?_, ?_⟩
      · intro u d h
        simp only [crawlRun, hq] at h
        rw [List.mem_cons] at h
        rcases h with h | h
        · injection h with h1 h2
          subst h2
          exact hd0le
        · rw [List.mem_append] at h
          rcases h with h | h
          · rcases hit.1 _ h with ⟨v, hv⟩ | ⟨_, v, hv⟩ <;> cases hv
          · rw [List.mem_cons] at h
            rcases h with h | h
            · cases h
            · exact ihn.1 u d h
      · intro u d h
        simp only [crawlRun, hq] at h
        rw [List.mem_cons] at h
        rcases h with h | h
        · cases h
        · rw [List.mem_append] at h
          rcases h with h | h
          · rcases hit.1 _ h with ⟨v, hv⟩ | ⟨hlt, v, hv⟩
            · cases hv
            · injection hv with h1 h2
              subst h2
              omega
          · rw [List.mem_cons] at h
            rcases h with h | h
            · cases h
            · exact ihn.2 u d h

/-- C3: in every run seeded with a single item at depth 0, every
`(url, depth)` pair ever dequeued from the discovery queue has
`depth ≤ MAX_DEPTH`, every item ever put on the discovery queue has
`depth ≤ MAX_DEPTH` (so never `MAX_DEPTH + 1`), and processing an item
whose depth equals `MAX_DEPTH` puts no child on the discovery queue at
all — children are enqueued with `depth + 1` only when
`depth < MAX_DEPTH`. -/
theorem crawl_depth_bound (nav : List Char → Bool)
    (links : List Char → List (List Char)) (seed : List Char)
    (st0 : CrawlSt) (hinit : crawlInit seed = some st0) (fuel : Nat) :
    (∀ u d, CEv.pop u d ∈ (crawlRun nav links seed fuel st0).1 →
      d ≤ MAX_DEPTH) ∧
      (∀ u d, CEv.discEnq u d ∈ (crawlRun nav links seed fuel st0).1 →
        d ≤ MAX_DEPTH) ∧
      (∀ st u v d2,
        CEv.discEnq v d2 ∉ (crawlIter nav links seed st u MAX_DEPTH).2) := by
  have hb : DqBound st0 := by
    unfold crawlInit at hinit
    cases hn : normalize_url seed with
    | error e =>
      rw [hn] at hinit
      cases hinit
    | ok n =>
      rw [hn] at hinit
      injection hinit with h2
      subst h2
      intro x hx
      rw [List.mem_singleton] at hx
      subst hx
      exact Nat.zero_le _
  have hr := crawlRun_depth nav links seed fuel st0 hb
  refine ⟨hr.1, hr.2, ?_⟩
  intro st u v d2 hmem
  have hit := crawlIter_facts nav links seed st u MAX_DEPTH
  rcases hit.1 _ hmem with ⟨w, hw⟩ | ⟨hlt, w, hw⟩
  · cases hw
  · omega

/-- Oracles and seed for the crawler witnesses. -/
def c3nav : List Char → Bool := fun _ => true

/-- Every page links to one internal page and one external page. -/
def c3links : List Char → List (List Char) :=
  fun _ => ["http://s.com/a".toList, "http://other.com/b".toList]

/-- Witness seed. -/
def c3seed : List Char := "http://s.com".toList

/-- Initial crawler state for the witness seed. -/
def c3st0 : CrawlSt := ⟨[("http://s.com/".toList, 0)], ["http://s.com/".toList], [], []⟩

/-- The event block produced by one traversal-loop iteration: the pop of
the item, then only enqueue events (scrape-queue push or child
discovery-queue push), then the `task_done` for that same item. -/
def CBlock (b : List CEv) : Prop :=
  ∃ u d mids, b = CEv.pop u d :: (mids ++ [CEv.taskDone]) ∧
    ∀ e ∈ mids,
      (∃ v, e = CEv.scrapeEnq v) ∨ ∃ v d2, e = CEv.discEnq v d2

/-- C6: the trace of any traversal run decomposes into per-item blocks,
each consisting of the pop, then all enqueues caused by processing that
item, then the `task_done` for it — so every enqueue happens strictly
before the `done()` of its discovering parent; and whenever the loop
exits via its `has_pending` check (rather than by running out of fuel)
the discovery queue is empty, so the sole traversal actor exits only
when no further items can be added. -/
theorem crawl_enqueue_before_done (nav : List Char → Bool)
    (links : List Char → List (List Char)) (base : List Char) :
    ∀ fuel st, ∃ blocks : List (List CEv),
      (crawlRun nav links base fuel st).1 = blocks.flatten ∧
      (∀ b ∈ blocks, CBlock b) ∧
      ((crawlRun nav links base fuel st).2.2 = true →
        (crawlRun nav links base fuel st).2.1.dq = []) := by
  intro fuel
  induction fuel with
  | zero =>
    intro st
    refine ⟨[], rfl, ?_, ?_⟩
    · intro b hb
      simp at hb
    · intro h
      simp [crawlRun] at h
  | succ n ih =>
    intro st
    cases hq : st.dq with
    | nil =>
      refine ⟨[], ?_, ?_, ?_⟩
      · simp [crawlRun, hq]
      · intro b hb
        simp at hb
      · intro h
        simp only [crawlRun, hq]
    | cons hd0 rest =>
      obtain ⟨u0, d0⟩ := hd0
      obtain ⟨bs, hjoin, hblocks, hexit⟩ :=
        ih (crawlIter nav links base { st with dq := rest } u0 d0).1
      refine ⟨(CEv.pop u0 d0 ::
        ((crawlIter nav links base { st with dq := rest } u0 d0).2 ++
          [CEv.taskDone])) :: bs, ?_, ?_, ?_⟩
      · simp only [crawlRun, hq, List.flatten_cons]
        rw [hjoin]
        simp [List.append_assoc]
      · intro b hb
        rw [List.mem_cons] at hb
        rcases hb with hb | hb
        · subst hb
          refine ⟨u0, d0,
            (crawlIter nav links base { st with dq := rest } u0 d0).2,
            rfl, ?_⟩
          intro e he
          rcases (crawlIter_facts nav links base
              { st with dq := rest } u0 d0).1 e he with ⟨v, hv⟩ | ⟨_, v, hv⟩
          · exact Or.inl ⟨v, hv⟩
          · exact Or.inr ⟨v, d0 + 1, hv⟩
        · exact hblocks b hb
      · intro h
        simp only [crawlRun, hq] at h ⊢
        exact hexit h

/-- Witness for C6 at a concrete two-page site: blocks exist and the
exit flag implies the queue drained. -/
theorem crawl_enqueue_before_done_witness :
    ∃ blocks : List (List CEv),
      (crawlRun c3nav c3links c3seed 4 c3st0).1 = blocks.flatten ∧
        (∀ b ∈ blocks, CBlock b) ∧
        ((crawlRun c3nav c3links c3seed 4 c3st0).2.2 = true →
          (crawlRun c3nav c3links c3seed 4 c3st0).2.1.dq = []) :=
  crawl_enqueue_before_done c3nav c3links c3seed 4 c3st0

/-- `True` exactly on pop events. -/
def isPopEv : CEv → Bool
  | CEv.pop _ _ => true
  | _ => false

/-- `True` exactly on `task_done` events. -/
def isDoneEv : CEv → Bool
  | CEv.taskDone => true
  | _ => false

theorem crawlIter_no_pop_done (nav : List Char → Bool)
    (links : List Char → List (List Char)) (base : List Char)
    (st : CrawlSt) (u : List Char) (d : Nat) :
    ∀ e ∈ (crawlIter nav links base st u d).2,
      isPopEv e = false ∧ isDoneEv e = false := by
  intro e he
  rcases (crawlIter_facts nav links base st u d).1 e he with
    ⟨v, hv⟩ | ⟨_, v, hv⟩ <;> subst hv <;> exact ⟨rfl, rfl⟩

/-- C7: in every traversal run the number of `task_done` calls equals the
number of pops (done is called exactly once per popped item, success or
failure); a navigation failure performs no scrape-queue push, no child
enqueue and no state change at all; and on such a failure the loop frame
still emits the pop and its `task_done` and continues with the remaining
queue — a single unreachable page never halts the traversal loop. -/
theorem crawl_done_once (nav : List Char → Bool)
    (links : List Char → List (List Char)) (base : List Char) :
    (∀ fuel st,
      (crawlRun nav links base fuel st).1.countP isPopEv =
        (crawlRun nav links base fuel st).1.countP isDoneEv) ∧
      (∀ st u d, nav u = false →
        crawlIter nav links base st u d = (st, [])) ∧
      (∀ fuel st u d rest, st.dq = (u, d) :: rest → nav u = false →
        crawlRun nav links base (fuel + 1) st =
          (CEv.pop u d :: CEv.taskDone ::
              (crawlRun nav links base fuel { st with dq := rest }).1,
            (crawlRun nav links base fuel { st with dq := rest }).2)) := by
  have hnav : ∀ st u d, nav u = false →
      crawlIter nav links base st u d = (st, []) := by
    intro st u d h
    unfold crawlIter
    rw [if_neg (by rw [h]; exact Bool.false_ne_true)]
  refine ⟨?_, hnav, ?_⟩
  · intro fuel
    induction fuel with
    | zero =>
      intro st
      rfl
    | succ n ih =>
      intro st
      cases hq : st.dq with
      | nil =>
        simp [crawlRun, hq]
      | cons hd0 rest =>
        obtain ⟨u0, d0⟩ := hd0
        have hz : ∀ p : CEv → Bool,
            (∀ e ∈ (crawlIter nav links base { st with dq := rest } u0 d0).2,
              p e = false) →
            (crawlIter nav links base
              { st with dq := rest } u0 d0).2.countP p = 0 := by
          intro p hp
          rw [List.countP_eq_zero]
          intro e he
          rw [hp e he]
          exact Bool.false_ne_true
        have h1 := hz isPopEv (fun e he =>
          (crawlIter_no_pop_done nav links base
            { st with dq := rest } u0 d0 e he).1)
        have h2 := hz isDoneEv (fun e he =>
          (crawlIter_no_pop_done nav links base
            { st with dq := rest } u0 d0 e he).2)
        have h3 := ih (crawlIter nav links base
          { st with dq := rest } u0 d0).1
        simp only [crawlRun, hq, List.countP_cons, List.countP_append,
          h1, h2, h3]
        rfl
  · intro fuel st u d rest hqe hn
    simp only [crawlRun, hqe]
    rw [hnav { st with dq := rest } u d hn]
    rfl

/-- Oracle for the C7 witness: navigation fails on exactly one URL. -/
def c7bad : List Char := "http://s.com/bad".toList

/-- Navigation oracle that fails on `c7bad` only. -/
def c7nav : List Char → Bool := fun u => ! (u == c7bad)

/-- Initial state for the C7 witness: the bad page first, a good page
behind it. -/
def c7st : CrawlSt :=
  ⟨[(c7bad, 1), ("http://s.com/".toList, 1)],
    [c7bad, "http://s.com/".toList], [], []⟩

/-- Witness for C7: counts agree on a concrete run, the failed
navigation is a no-op, and the loop frame continues past it. -/
theorem crawl_done_once_witness :
    ((crawlRun c7nav c3links c3seed 3 c7st).1.countP isPopEv =
      (crawlRun c7nav c3links c3seed 3 c7st).1.countP isDoneEv) ∧
      crawlIter c7nav c3links c3seed c7st c7bad 1 = (c7st, []) ∧
      crawlRun c7nav c3links c3seed 3 c7st =
        (CEv.pop c7bad 1 :: CEv.taskDone ::
            (crawlRun c7nav c3links c3seed 2
              { c7st with dq := [("http://s.com/".toList, 1)] }).1,
          (crawlRun c7nav c3links c3seed 2
            { c7st with dq := [("http://s.com/".toList, 1)] }).2) :=
  ⟨(crawl_done_once c7nav c3links c3seed).1 3 c7st,
    (crawl_done_once c7nav c3links c3seed).2.1 c7st c7bad 1 (by decide),
    (crawl_done_once c7nav c3links c3seed).2.2 2 c7st c7bad 1
      [("http://s.com/".toList, 1)] (by decide) (by decide)⟩

/-- Witness for C3 at a concrete two-page site. -/
theorem crawl_depth_bound_witness :
    crawlInit c3seed = some c3st0 ∧
      ((∀ u d, CEv.pop u d ∈ (crawlRun c3nav c3links c3seed 4 c3st0).1 →
        d ≤ MAX_DEPTH) ∧
        (∀ u d, CEv.discEnq u d ∈ (crawlRun c3nav c3links c3seed 4 c3st0).1 →
          d ≤ MAX_DEPTH) ∧
        (∀ st u v d2,
          CEv.discEnq v d2 ∉ (crawlIter c3nav c3links c3seed st u MAX_DEPTH).2)) :=
  ⟨by decide, crawl_depth_bound c3nav c3links c3seed c3st0 (by decide) 4⟩

/-- State of the scrape queue and the worker pool after `main`'s Step 8:
`oq` is the `URLQueue`'s FIFO contents (`some u` a real URL put by the
crawler, `none` a shutdown sentinel put by `add_sentinel_async`); per
worker `i`: whether its loop has hit `break`, how many sentinels it has
dequeued, and how many `task_done` calls it has made. -/
structure WSt where
  oq : List (Option (List Char))
  fin : List Bool
  sent : List Nat
  dones : List Nat
deriving Repr, DecidableEq

/-- `scraper_runner.main` Steps 7–8: the sentinel loop runs only after
`await crawler_task` returns, so the queue then holds whatever URLs the
crawler put that are still unconsumed, followed by exactly
`WORKER_COUNT` `None` sentinels appended by
`for _ in range(WORKER_COUNT): await scrape_queue.add_sentinel_async()`;
all `k` workers are still in their loops, none has consumed a sentinel
or called `task_done` for one. -/
def wInit (urls : List (List Char)) (k : Nat) : WSt :=
  ⟨urls.map some ++ List.replicate k none,
    List.replicate k false, List.replicate k 0, List.replicate k 0⟩

/-- One iteration of `ScraperWorker.run`'s `while True` loop by worker
`i`: pop the queue head; on `None` call `task_done` and `break`; on a
URL, process it (any failure is caught) and call `task_done` in the
`finally`.  Disabled (`none`) when worker `i` has already broken out of
its loop, does not exist, or the pop would block on an empty queue. -/
def wStep (i : Nat) (s : WSt) : Option WSt :=
  match s.fin[i]? with
  | some false =>
    match s.oq with
    | [] => none
    | none :: rest =>
      some ⟨rest, s.fin.set i true, s.sent.set i (s.sent.getD i 0 + 1),
        s.dones.set i (s.dones.getD i 0 + 1)⟩
    | some _ :: rest =>
      some ⟨rest, s.fin, s.sent, s.dones.set i (s.dones.getD i 0 + 1)⟩
  | _ => none

/-- Interleaved executions of the `k` worker loops. -/
inductive WReach : WSt → WSt → Prop where
  | refl (s : WSt) : WReach s s
  | step {s t u : WSt} (i : Nat) : WReach s t → wStep i t = some u → WReach s u

/-- Deterministic scheduler: run the workers named by the script,
skipping disabled steps. -/
def wRun : List Nat → WSt → WSt
  | [], s => s
  | i :: is, s =>
    match wStep i s with
    | some t => wRun is t
    | none => wRun is s

theorem wReach_trans {a b c : WSt} (h1 : WReach a b) (h2 : WReach b c) :
    WReach a c := by
  induction h2 with
  | refl => exact h1
  | step i h hstep ih => exact WReach.step i ih hstep

theorem wRun_reach : ∀ (is : List Nat) (s : WSt), WReach s (wRun is s) := by
  intro is
  induction is with
  | nil =>
    intro s
    exact WReach.refl s
  | cons i is ih =>
    intro s
    unfold wRun
    cases hstep : wStep i s with
    | none => exact ih s
    | some t =>
      exact wReach_trans (WReach.step i (WReach.refl s) hstep) (ih t)

theorem getD_replicate {α : Type} (k i : Nat) (a : α) :
    (List.replicate k a).getD i a = a := by
  rw [List.getD_eq_getElem?_getD, List.getElem?_replicate]
  split <;> rfl

theorem getD_set_self {α : Type} (l : List α) (i : Nat) (h : i < l.length)
    (a d : α) : (l.set i a).getD i d = a := by
  rw [List.getD_eq_getElem?_getD, List.getElem?_set_self h]
  rfl

theorem getD_set_ne {α : Type} (l : List α) {i j : Nat} (h : i ≠ j)
    (a d : α) : (l.set i a).getD j d = l.getD j d := by
  rw [List.getD_eq_getElem?_getD, List.getElem?_set_ne h,
    List.getD_eq_getElem?_getD]

theorem countP_set_true (l : List Bool) :
    ∀ i, l[i]? = some false →
      (l.set i true).countP id = l.countP id + 1 := by
  induction l with
  | nil =>
    intro i h
    simp at h
  | cons b bs ih =>
    intro i h
    cases i with
    | zero =>
      rw [List.getElem?_cons_zero] at h
      injection h with h
      subst h
      simp [List.countP_cons]
    | succ j =>
      rw [List.getElem?_cons_succ] at h
      rw [List.set_cons_succ, List.countP_cons, List.countP_cons, ih j h]
      omega

theorem countP_id_le (l : List Bool) : l.countP id ≤ l.length := by
  induction l with
  | nil => exact Nat.le_refl 0
  | cons a as ih =>
    rw [List.countP_cons, List.length_cons]
    cases a with
    | false =>
      have hif : (if id false = true then (1 : Nat) else 0) = 0 := rfl
      rw [hif]
      omega
    | true =>
      have hif : (if id true = true then (1 : Nat) else 0) = 1 := rfl
      rw [hif]
      omega

theorem countP_id_eq_length (l : List Bool) :
    l.countP id = l.length → ∀ b ∈ l, b = true := by
  induction l with
  | nil =>
    intro h b hb
    cases hb
  | cons a as ih =>
    intro h b hb
    rw [List.countP_cons, List.length_cons] at h
    have hle := countP_id_le as
    cases a with
    | false =>
      exfalso
      have hif : (if id false = true then (1 : Nat) else 0) = 0 := rfl
      rw [hif] at h
      omega
    | true =>
      have h2 : as.countP id = as.length := by
        have hif : (if id true = true then (1 : Nat) else 0) = 1 := rfl
        rw [hif] at h
        omega
      rcases List.mem_cons.mp hb with hb | hb
      · exact hb
      · exact ih h2 b hb

theorem countP_id_of_all (l : List Bool) (h : ∀ b ∈ l, b = true) :
    l.countP id = l.length := by
  induction l with
  | nil => rfl
  | cons a as ih =>
    rw [List.countP_cons, List.length_cons,
      ih (fun b hb => h b (List.mem_cons_of_mem a hb)),
      h a (List.mem_cons_self a as)]
    simp [id]

theorem eq_replicate_true (l : List Bool) :
    ∀ k, l.length = k → (∀ b ∈ l, b = true) → l = List.replicate k true := by
  induction l with
  | nil =>
    intro k hk _
    rw [← hk]
    rfl
  | cons a as ih =>
    intro k hk hall
    cases k with
    | zero => simp at hk
    | succ m =>
      rw [List.replicate_succ, hall a (List.mem_cons_self a as),
        ih m (by rw [List.length_cons] at hk; omega)
          (fun b hb => hall b (List.mem_cons_of_mem a hb))]

/-- Worker-pool invariant: the tracking lists have one slot per worker;
the queue is always URLs-then-sentinels with the unpopped sentinels plus
the finished workers accounting for all `k` sentinels, and no sentinel
is popped while a URL is still ahead of one; a finished worker dequeued
exactly one sentinel and called `task_done` at least once, a running one
has dequeued no sentinel. -/
def WInv (k : Nat) (s : WSt) : Prop :=
  s.fin.length = k ∧ s.sent.length = k ∧ s.dones.length = k ∧
    (∃ us n, s.oq = us.map some ++ List.replicate n none ∧
      n + s.fin.countP id = k ∧ (us = [] ∨ n = k)) ∧
    (∀ i, i < k →
      (s.fin.getD i false = true →
        s.sent.getD i 0 = 1 ∧ 1 ≤ s.dones.getD i 0) ∧
      (s.fin.getD i false = false → s.sent.getD i 0 = 0))

theorem wInit_inv (urls : List (List Char)) (k : Nat) :
    WInv k (wInit urls k) := by
  refine ⟨by simp [wInit], by simp [wInit], by simp [wInit],
    ⟨urls, k, rfl, ?_, Or.inr rfl⟩, ?_⟩
  · have h0 : (List.replicate k false).countP id = 0 := by
      rw [List.countP_eq_zero]
      intro b hb
      rw [List.eq_of_mem_replicate hb]
      simp
    have h1 : (wInit urls k).fin.countP id = 0 := h0
    rw [h1]
    omega
  · intro i hi
    have hfd : (wInit urls k).fin.getD i false = false := getD_replicate k i false
    have hsd : (wInit urls k).sent.getD i 0 = 0 := getD_replicate k i 0
    rw [hfd, hsd]
    refine ⟨fun h => ?_, fun _ => rfl⟩
    cases h

theorem wInv_step {k : Nat} {s t : WSt} {i : Nat} (hs : wStep i s = some t)
    (hinv : WInv k s) : WInv k t := by
  obtain ⟨hf, hse, hd, ⟨us, n, hoq, hcount, hus⟩, hw⟩ := hinv
  unfold wStep at hs
  cases hfi : s.fin[i]? with
  | none =>
    rw [hfi] at hs
    cases hs
  | some b =>
    rw [hfi] at hs
    cases b with
    | true => cases hs
    | false =>
      have hik : i < k := by
        have h5 := hfi
        rw [List.getElem?_eq_some] at h5
        rw [← hf]
        exact h5.1
      have hfin_i : s.fin.getD i false = false := by
        rw [List.getD_eq_getElem?_getD, hfi]
        rfl
      cases hq : s.oq with
      | nil =>
        rw [hq] at hs
        cases hs
      | cons x rest =>
        rw [hq] at hoq
        cases x with
        | none =>
          rw [hq] at hs
          injection hs with hs
          subst hs
          have hus0 : us = [] := by
            cases us with
            | nil => rfl
            | cons a as =>
              rw [List.map_cons, List.cons_append] at hoq
              cases hoq
          subst hus0
          rw [List.map_nil, List.nil_append] at hoq
          cases n with
          | zero => cases hoq
          | succ m =>
            rw [List.replicate_succ] at hoq
            injection hoq with h1 h2
            refine ⟨by rw [List.length_set]; exact hf,
              by rw [List.length_set]; exact hse,
              by rw [List.length_set]; exact hd,
              ⟨[], m, by rw [List.map_nil, List.nil_append]; exact h2, ?_,
                Or.inl rfl⟩, ?_⟩
            · have hc := countP_set_true s.fin i hfi
              dsimp only
              omega
            · intro j hj
              by_cases hij : i = j
              · subst hij
                have hl1 : (s.fin.set i true).getD i false = true :=
                  getD_set_self s.fin i (by omega) true false
                have hl2 : (s.sent.set i (s.sent.getD i 0 + 1)).getD i 0 =
                    s.sent.getD i 0 + 1 :=
                  getD_set_self s.sent i (by omega) _ 0
                have hl3 : (s.dones.set i (s.dones.getD i 0 + 1)).getD i 0 =
                    s.dones.getD i 0 + 1 :=
                  getD_set_self s.dones i (by omega) _ 0
                dsimp only
                rw [hl1, hl2, hl3]
                have hsent0 : s.sent.getD i 0 = 0 := (hw i hik).2 hfin_i
                refine ⟨fun _ => ⟨by omega, by omega⟩, fun h => ?_⟩
                cases h
              · dsimp only
                rw [getD_set_ne s.fin hij, getD_set_ne s.sent hij,
                  getD_set_ne s.dones hij]
                exact hw j hj
        | some u =>
          rw [hq] at hs
          injection hs with hs
          subst hs
          cases us with
          | nil =>
            rw [List.map_nil, List.nil_append] at hoq
            cases n with
            | zero => cases hoq
            | succ m =>
              rw [List.replicate_succ] at hoq
              cases hoq
          | cons a as =>
            rw [List.map_cons, List.cons_append] at hoq
            injection hoq with h1 h2
            refine ⟨hf, hse, by rw [List.length_set]; exact hd,
              ⟨as, n, h2, hcount, ?_⟩, ?_⟩
            · rcases hus with h | h
              · cases h
              · exact Or.inr h
            · intro j hj
              by_cases hij : i = j
              · subst hij
                have hl3 : (s.dones.set i (s.dones.getD i 0 + 1)).getD i 0 =
                    s.dones.getD i 0 + 1 :=
                  getD_set_self s.dones i (by omega) _ 0
                dsimp only
                rw [hl3]
                refine ⟨fun h => ?_, fun _ => (hw i hik).2 hfin_i⟩
                rw [hfin_i] at h
                cases h
              · dsimp only
                rw [getD_set_ne s.dones hij]
                exact hw j hj

theorem wReach_inv {k : Nat} {s t : WSt} (h : WReach s t) (hs : WInv k s) :
    WInv k t := by
  induction h with
  | refl => exact hs
  | step i h1 h2 ih => exact wInv_step h2 ih

theorem wStuck (k : Nat) (hk : 0 < k) (s : WSt) (hinv : WInv k s)
    (hstuck : ∀ i, i < k → wStep i s = none) :
    s.oq = [] ∧ s.fin = List.replicate k true := by
  obtain ⟨hf, hse, hd, ⟨us, n, hoq, hcount, hus⟩, hw⟩ := hinv
  have hall : ∀ b ∈ s.fin, b = true := by
    intro b hb
    by_contra hbt
    have hb2 : b = false := by
      cases b
      · rfl
      · exact absurd rfl hbt
    subst hb2
    obtain ⟨j, hj, hje⟩ := List.getElem_of_mem hb
    have hjk : j < k := by omega
    have hfij : s.fin[j]? = some false := by
      rw [List.getElem?_eq_some]
      exact ⟨hj, hje⟩
    have hst := hstuck j hjk
    unfold wStep at hst
    rw [hfij] at hst
    cases hq : s.oq with
    | nil =>
      rw [hq] at hoq
      cases us with
      | cons a as =>
        rw [List.map_cons, List.cons_append] at hoq
        cases hoq
      | nil =>
        rw [List.map_nil, List.nil_append] at hoq
        cases n with
        | succ m =>
          rw [List.replicate_succ] at hoq
          cases hoq
        | zero =>
          have hcnt : s.fin.countP id = k := by omega
          have hmem := countP_id_eq_length s.fin (by rw [hcnt, hf]) false hb
          cases hmem
    | cons x rest =>
      rw [hq] at hst
      cases x <;> cases hst
  have hcnt : s.fin.countP id = k := by
    rw [countP_id_of_all s.fin hall]
    exact hf
  have hn0 : n = 0 := by omega
  subst hn0
  have hus0 : us = [] := by
    rcases hus with h | h
    · exact h
    · omega
  subst hus0
  exact ⟨by rw [hoq]; rfl, eq_replicate_true s.fin k hf hall⟩

/-- C4: after the straight-line Steps 7–8 of `main` (sentinels are
enqueued only once `await crawler_task` has returned, i.e. after the
crawler loop exited), the scrape queue holds exactly
`k = WORKER_COUNT` sentinels, all behind every leftover URL; in every
interleaved execution of the worker loops from that point, a worker
whose loop has terminated dequeued exactly one sentinel and called
`task_done` for it, a worker still running has dequeued none — no
worker terminates before receiving one; and in any state where no
worker step is possible the queue is fully drained and all `k` worker
loops have terminated. -/
theorem worker_shutdown (k : Nat) (hk : 0 < k) (urls : List (List Char)) :
    ((wInit urls k).oq.countP (fun o => o.isNone) = k ∧
      (∀ j x, (wInit urls k).oq[j]? = some x → x.isNone = true →
        urls.length ≤ j)) ∧
      (∀ s, WReach (wInit urls k) s → ∀ i, i < k →
        (s.fin.getD i false = true →
          s.sent.getD i 0 = 1 ∧ 1 ≤ s.dones.getD i 0) ∧
        (s.fin.getD i false = false → s.sent.getD i 0 = 0)) ∧
      (∀ s, WReach (wInit urls k) s → (∀ i, i < k → wStep i s = none) →
        s.oq = [] ∧ s.fin = List.replicate k true) := by
  refine ⟨⟨?_, ?_⟩, ?_, ?_⟩
  · have h1 : (urls.map some).countP (fun o => o.isNone) = 0 := by
      rw [List.countP_eq_zero]
      intro o ho
      obtain ⟨u, hu1, hu2⟩ := List.mem_map.mp ho
      rw [← hu2]
      simp
    have h2 : ∀ m, (List.replicate m (none : Option (List Char))).countP
        (fun o => o.isNone) = m := by
      intro m
      induction m with
      | zero => rfl
      | succ j ih =>
        rw [List.replicate_succ, List.countP_cons, ih]
        rfl
    have h3 : (wInit urls k).oq.countP (fun o => o.isNone) =
        (urls.map some).countP (fun o => o.isNone) +
          (List.replicate k (none : Option (List Char))).countP
            (fun o => o.isNone) := List.countP_append _ _ _
    rw [h3, h1, h2]
    omega
  · intro j x hj hx
    by_contra hlt
    push_neg at hlt
    have hjm : j < (urls.map some).length := by
      rw [List.length_map]
      exact hlt
    have hj2 : (wInit urls k).oq[j]? = (urls.map some)[j]? := by
      show ((urls.map some) ++
        List.replicate k (none : Option (List Char)))[j]? = (urls.map some)[j]?
      rw [List.getElem?_append]
      rw [if_pos hjm]
    rw [hj2, List.getElem?_map] at hj
    cases hu : urls[j]? with
    | none =>
      rw [hu] at hj
      cases hj
    | some u =>
      rw [hu] at hj
      have hj6 : some (some u) = some x := hj
      injection hj6 with hj6
      rw [← hj6] at hx
      cases hx
  · intro s hr i hi
    exact (wReach_inv hr (wInit_inv urls k)).2.2.2.2 i hi
  · intro s hr hstuck
    exact wStuck k hk s (wReach_inv hr (wInit_inv urls k)) hstuck

/-- Witness URLs for C4. -/
def c4urls : List (List Char) := ["http://s.com/a".toList]

/-- Final state of a complete two-worker run: worker 0 consumes the URL
and a sentinel, worker 1 consumes the other sentinel. -/
def c4final : WSt := wRun [0, 0, 1] (wInit c4urls 2)

/-- Witness for C4 with two workers and one leftover URL: the theorem
holds and the concrete maximal run drains the queue and finishes both
workers. -/
theorem worker_shutdown_witness :
    (((wInit c4urls 2).oq.countP (fun o => o.isNone) = 2 ∧
      (∀ j x, (wInit c4urls 2).oq[j]? = some x → x.isNone = true →
        c4urls.length ≤ j)) ∧
      (∀ s, WReach (wInit c4urls 2) s → ∀ i, i < 2 →
        (s.fin.getD i false = true →
          s.sent.getD i 0 = 1 ∧ 1 ≤ s.dones.getD i 0) ∧
        (s.fin.getD i false = false → s.sent.getD i 0 = 0)) ∧
      (∀ s, WReach (wInit c4urls 2) s → (∀ i, i < 2 → wStep i s = none) →
        s.oq = [] ∧ s.fin = List.replicate 2 true)) ∧
      (c4final.oq = [] ∧ c4final.fin = List.replicate 2 true ∧
        c4final.sent = [1, 1] ∧ c4final.dones = [2, 1]) :=
  ⟨worker_shutdown 2 (by decide) c4urls, by decide⟩

end WebScraper
